import Mathlib

/-!
Shallow embedding of the resilience core of the govee gateway:
the per-device command queue with coalescing (src/utils/queue.ts),
the retry executor with error classification (retry module), and the
TTL/LRU read cache (cache module).

Conventions of the embedding:
- device ids and correlation ids are `Nat` (opaque strings in the source);
- command payloads (`params`) are `Nat` (opaque `unknown` in the source);
- timestamps and durations are `Int` (JS numbers used only in comparisons
  and subtraction here);
- a JS `Promise` resolver pair is represented as a `Resolver` value: the
  source builds resolver closures by wrapping (`combinedResolve` /
  `combinedReject`), and the wrapping structure is exactly a chain of
  `Resolver.combined` constructors, each holding the merged command that
  the closure captured;
- the single-threaded JS event loop is modelled as a step function over an
  explicit state: `enq` performs everything `enqueue` does synchronously
  (up to and including starting the executor), and `okE`/`errE` deliver
  the settlement of the in-flight executor call, after which the drain
  loop continues synchronously.
-/

namespace GoveeSpec

/-- Command kinds of `QueuedCommand.type` in queue.ts. -/
inductive CmdType where
  | turn
  | brightness
  | color
deriving DecidableEq, Repr

/-- Mirror of `QueuedCommand` (queue.ts). The optional
`mergedCorrelationIds` field defaults to `[]`; the source reads it only
through `?? []`, so the empty list is a faithful encoding of `undefined`. -/
structure QueuedCommand where
  type : CmdType
  params : Nat
  timestamp : Int
  correlationId : Nat
  mergedCorrelationIds : List Nat := []
deriving DecidableEq, Repr

/-- Mirror of `CommandResult` (queue.ts). `result` and `error` are opaque. -/
structure CommandResult where
  ok : Bool
  result : Option Nat := none
  error : Option Nat := none
  correlationIds : Option (List Nat) := none
deriving DecidableEq, Repr

/-- The resolve/reject closure pair of a queue entry. `base` is the pair
created by `enqueue`'s `new Promise` for a caller; `combined` is the pair
built by `tryCoalesce` (`combinedResolve`/`combinedReject`), which captured
the merged command `cmd`, the previous pair `inner`, and the new caller's
own pair (identified by that caller's correlation id). -/
inductive Resolver where
  | base (callerId : Nat)
  | combined (cmd : QueuedCommand) (inner : Resolver) (newCallerId : Nat)
deriving DecidableEq, Repr

/-- Mirror of `QueueEntry` (queue.ts): the command plus its resolver pair. -/
structure Entry where
  command : QueuedCommand
  resolve : Resolver
deriving DecidableEq, Repr

/-- Calling the resolve side of a resolver with a result: returns the list
of (callerId, result delivered) pairs in delivery order. `combined` first
rewrites `correlationIds` from its captured merged command, then calls the
inner resolver and finally the new caller, exactly as `combinedResolve`. -/
def settleResolve : Resolver → CommandResult → List (Nat × CommandResult)
  | .base callerId, r => [(callerId, r)]
  | .combined cmd inner newCallerId, r =>
    let allIds := cmd.correlationId :: cmd.mergedCorrelationIds
    let resultWithIds : CommandResult := { r with correlationIds := some allIds }
    settleResolve inner resultWithIds ++ [(newCallerId, resultWithIds)]

/-- Calling the reject side of a resolver: the same error reaches the same
callers in the same order (`combinedReject` calls the original reject and
then the new caller's). -/
def rejectCallers : Resolver → List Nat
  | .base callerId => [callerId]
  | .combined _ inner newCallerId => rejectCallers inner ++ [newCallerId]

/-- The entry `enqueue` pushes when no coalescing happens. -/
def baseEntry (c : QueuedCommand) : Entry :=
  { command := c, resolve := .base c.correlationId }

/-- The body of `tryCoalesce`'s merge branch: last-write-wins command with
accumulated merged ids, and the combined resolver pair. -/
def mergeEntry (e : Entry) (c : QueuedCommand) : Entry :=
  let mergedIds := e.command.correlationId :: e.command.mergedCorrelationIds
  let mergedCommand : QueuedCommand :=
    { type := c.type
      params := c.params
      timestamp := c.timestamp
      correlationId := c.correlationId
      mergedCorrelationIds := mergedIds }
  { command := mergedCommand, resolve := .combined mergedCommand e.resolve c.correlationId }

/-- The per-entry test of `tryCoalesce`'s scan: same `type` and
`newCommand.timestamp - existingCommand.timestamp <= coalesceWindowMs`
(the source skips the entry when the age exceeds the window). -/
def sameTypeWithin (w : Int) (e : Entry) (c : QueuedCommand) : Bool :=
  e.command.type == c.type && decide (c.timestamp - e.command.timestamp ≤ w)

/-- Mirror of `DeviceQueue.tryCoalesce`: scan the waiting entries from the
most recently added (the end of the list) backward; on the first entry that
matches, replace it in place by the merged entry and stop. `none` means no
entry matched and the caller will push a fresh entry. -/
def tryCoalesce (w : Int) (c : QueuedCommand) : List Entry → Option (List Entry)
  | [] => none
  | e :: rest =>
    match tryCoalesce w c rest with
    | some rest' => some (e :: rest')
    | none => if sameTypeWithin w e c then some (mergeEntry e c :: rest) else none

/-- Pointwise update of a device-indexed map (the JS `Map` with a default:
`queues` defaults to `[]`, `processing` to `false`, no entry in flight to
`none`). -/
def upd {α : Type} (f : Nat → α) (dev : Nat) (v : α) : Nat → α :=
  fun d => if d = dev then v else f d

/-- Reasons an entry's reject side is called. -/
inductive RejReason where
  | execError (msg : Nat)
  | unknownExec
  | queueCleared
deriving DecidableEq, Repr

/-- State of a `DeviceQueue` between event-loop turns (no `clear` calls;
`clear` is modelled separately below). `waiting dev` is the array
`queues.get(dev)` (absent keys read as `[]`), `processing dev` the drain
guard flag, `executing dev` the entry the drain loop has shifted and whose
executor call is in flight. `invocations` is the log of executor calls,
`resolvedL`/`rejectedL` the log of settlements delivered to callers. -/
structure QueueState where
  waiting : Nat → List Entry
  processing : Nat → Bool
  executing : Nat → Option Entry
  invocations : List (Nat × QueuedCommand)
  resolvedL : List (Nat × CommandResult)
  rejectedL : List (Nat × RejReason)

/-- The initial state of a fresh `DeviceQueue`. -/
def initState : QueueState :=
  { waiting := fun _ => []
    processing := fun _ => false
    executing := fun _ => none
    invocations := []
    resolvedL := []
    rejectedL := [] }

/-- The drain loop's next iteration: if the device's array is non-empty,
shift its head and invoke the executor on it; otherwise exit the loop and
reset the processing flag (the `finally` block). -/
def startNext (dev : Nat) (s : QueueState) : QueueState :=
  match s.waiting dev with
  | [] => { s with processing := upd s.processing dev false }
  | e :: rest =>
    { s with
      waiting := upd s.waiting dev rest
      executing := upd s.executing dev (some e)
      invocations := s.invocations ++ [(dev, e.command)] }

/-- Mirror of `DeviceQueue.enqueue` run to its first suspension point:
get-or-create the device's array, try to coalesce when the window is
positive, otherwise push a fresh entry and start the drain loop unless the
guard flag is already set (in which case `processQueue` returns at once). -/
def enqStep (w : Int) (dev : Nat) (c : QueuedCommand) (s : QueueState) : QueueState :=
  let q := s.waiting dev
  match (if 0 < w then tryCoalesce w c q else none) with
  | some q' => { s with waiting := upd s.waiting dev q' }
  | none =>
    let s1 := { s with waiting := upd s.waiting dev (q ++ [baseEntry c]) }
    if s.processing dev then s1
    else startNext dev { s1 with processing := upd s1.processing dev true }

/-- The in-flight executor call for `dev` fulfils with result `r`: the
drain loop resolves the entry and continues with the next iteration. When
nothing is in flight the event is a no-op (it cannot arise in the source). -/
def okStep (dev : Nat) (r : CommandResult) (s : QueueState) : QueueState :=
  match s.executing dev with
  | none => s
  | some e =>
    startNext dev
      { s with
        resolvedL := s.resolvedL ++ settleResolve e.resolve r
        executing := upd s.executing dev none }

/-- The in-flight executor call for `dev` throws: the drain loop rejects
the entry (wrapping a non-`Error` value, `m = none`, as the fixed unknown
error) and continues with the next iteration. -/
def errStep (dev : Nat) (m : Option Nat) (s : QueueState) : QueueState :=
  match s.executing dev with
  | none => s
  | some e =>
    let reason := match m with
      | some k => RejReason.execError k
      | none => RejReason.unknownExec
    startNext dev
      { s with
        rejectedL := s.rejectedL ++ (rejectCallers e.resolve).map (fun i => (i, reason))
        executing := upd s.executing dev none }

/-- Events of the queue machine without shutdown. -/
inductive Event where
  | enq (dev : Nat) (c : QueuedCommand)
  | okE (dev : Nat) (r : CommandResult)
  | errE (dev : Nat) (m : Option Nat)
deriving DecidableEq, Repr

/-- One event-loop step. -/
def stepE (w : Int) (ev : Event) (s : QueueState) : QueueState :=
  match ev with
  | .enq dev c => enqStep w dev c s
  | .okE dev r => okStep dev r s
  | .errE dev m => errStep dev m s

/-- Run a list of events from a state. -/
def run (w : Int) (s : QueueState) : List Event → QueueState
  | [] => s
  | ev :: evs => run w (stepE w ev s) evs

/-- The entry produced by merging the commands of `cs` (in order) into an
existing entry. -/
def foldMerge (e : Entry) (cs : List QueuedCommand) : Entry :=
  cs.foldl mergeEntry e

/-! ### The queue machine with `clear`

`DeviceQueue.clear` iterates the `queues` map, rejects every waiting entry
with the queue-cleared error, and then clears the `queues` and `processing`
maps. The arrays themselves are not emptied, and a running drain loop holds
a reference to its device's array (`const queue = this.queues.get(...)` is
read once, before the loop); the loop therefore keeps draining that array
after `clear`. To express this aliasing the maps are modelled as
association lists (mirroring the insertion-ordered JS `Map`) and the array
captured by each running drain loop is tracked in `drains`: before any
`clear` it is the same array as the map's (every mutation updates both);
after `clear` the map no longer holds it. The model covers event sequences
in which `enqueue` is not called again after `clear` (`cEnq` is a no-op
once `shutdown` is set); no claim is about enqueues after shutdown. -/

/-- Lookup in an insertion-ordered association list (`Map.get`). -/
def aGet {α : Type} (m : List (Nat × α)) (k : Nat) : Option α :=
  (m.find? (fun p => p.1 == k)).map (fun p => p.2)

/-- Mirror of `Map.set`: replace in place, or append a new key at the end. -/
def aSet {α : Type} (m : List (Nat × α)) (k : Nat) (v : α) : List (Nat × α) :=
  match m with
  | [] => [(k, v)]
  | p :: rest => if p.1 = k then (k, v) :: rest else p :: aSet rest k v

/-- Mirror of `Map.delete`. -/
def aRemove {α : Type} (m : List (Nat × α)) (k : Nat) : List (Nat × α) :=
  m.filter (fun p => p.1 != k)

/-- State of a `DeviceQueue` for the shutdown analysis. -/
structure CState where
  queuesMap : List (Nat × List Entry)
  procMap : List (Nat × Bool)
  drains : List (Nat × List Entry)
  execMap : List (Nat × Entry)
  invocations : List (Nat × QueuedCommand)
  resolvedL : List (Nat × CommandResult)
  rejectedL : List (Nat × RejReason)
  clearedCounts : List Nat
  shutdown : Bool

/-- Initial state for the shutdown machine. -/
def cInit : CState :=
  { queuesMap := []
    procMap := []
    drains := []
    execMap := []
    invocations := []
    resolvedL := []
    rejectedL := []
    clearedCounts := []
    shutdown := false }

/-- Next iteration of a running drain loop: it re-reads the length of the
array it captured at loop entry (`drains`), shifts its head and invokes the
executor, or exits and resets the processing flag. The shift also shows in
the `queues` map exactly when the map still references that array. -/
def cStartNext (dev : Nat) (s : CState) : CState :=
  match (aGet s.drains dev).getD [] with
  | [] =>
    { s with
      procMap := aSet s.procMap dev false
      drains := aRemove s.drains dev }
  | e :: rest =>
    { s with
      drains := aSet s.drains dev rest
      queuesMap :=
        if (aGet s.queuesMap dev).isSome then aSet s.queuesMap dev rest else s.queuesMap
      execMap := aSet s.execMap dev e
      invocations := s.invocations ++ [(dev, e.command)] }

/-- `enqueue` in the shutdown machine (no-op once `shutdown` is set: the
model does not cover enqueues after `clear`). Mutations of the device's
array show both in the map and, when a drain loop for the device is
running, in its captured array — they are one object before `clear`. -/
def cEnq (w : Int) (dev : Nat) (c : QueuedCommand) (s : CState) : CState :=
  if s.shutdown then s
  else
    let q := (aGet s.queuesMap dev).getD []
    match (if 0 < w then tryCoalesce w c q else none) with
    | some q' =>
      { s with
        queuesMap := aSet s.queuesMap dev q'
        drains := if (aGet s.drains dev).isSome then aSet s.drains dev q' else s.drains }
    | none =>
      let q1 := q ++ [baseEntry c]
      let s1 :=
        { s with
          queuesMap := aSet s.queuesMap dev q1
          drains := if (aGet s.drains dev).isSome then aSet s.drains dev q1 else s.drains }
      if (aGet s.procMap dev).getD false then s1
      else
        cStartNext dev
          { s1 with
            procMap := aSet s1.procMap dev true
            drains := aSet s1.drains dev q1 }

/-- Fulfilment of the in-flight executor call in the shutdown machine. -/
def cOk (dev : Nat) (r : CommandResult) (s : CState) : CState :=
  match aGet s.execMap dev with
  | none => s
  | some e =>
    cStartNext dev
      { s with
        resolvedL := s.resolvedL ++ settleResolve e.resolve r
        execMap := aRemove s.execMap dev }

/-- Executor throw in the shutdown machine. -/
def cErr (dev : Nat) (m : Option Nat) (s : CState) : CState :=
  match aGet s.execMap dev with
  | none => s
  | some e =>
    let reason := match m with
      | some k => RejReason.execError k
      | none => RejReason.unknownExec
    cStartNext dev
      { s with
        rejectedL := s.rejectedL ++ (rejectCallers e.resolve).map (fun i => (i, reason))
        execMap := aRemove s.execMap dev }

/-- Mirror of `DeviceQueue.clear`: reject every entry of every queue (in
map order) with the queue-cleared error, record the count of entries so
rejected, and clear the `queues` and `processing` maps. The captured
arrays of running drain loops (`drains`) and the in-flight executions
(`execMap`) are untouched — `clear` never reaches them. -/
def cClear (s : CState) : CState :=
  { s with
    queuesMap := []
    procMap := []
    rejectedL := s.rejectedL ++
      ((s.queuesMap.map (fun p =>
        (p.2.map (fun e => (rejectCallers e.resolve).map (fun i => (i, RejReason.queueCleared)))).flatten)).flatten)
    clearedCounts := s.clearedCounts ++ [(s.queuesMap.map (fun p => p.2.length)).sum]
    shutdown := true }

/-- Events of the shutdown machine. -/
inductive CEvent where
  | enq (dev : Nat) (c : QueuedCommand)
  | okE (dev : Nat) (r : CommandResult)
  | errE (dev : Nat) (m : Option Nat)
  | clearE
deriving DecidableEq, Repr

/-- One step of the shutdown machine. -/
def cStep (w : Int) (ev : CEvent) (s : CState) : CState :=
  match ev with
  | .enq dev c => cEnq w dev c s
  | .okE dev r => cOk dev r s
  | .errE dev m => cErr dev m s
  | .clearE => cClear s

/-- Run the shutdown machine. -/
def cRun (w : Int) (s : CState) : List CEvent → CState
  | [] => s
  | ev :: evs => cRun w (cStep w ev s) evs

/-! ### Retry executor (retry module)

Errors are modelled by the observations `isRetryableError` and the
exhaustion remap make of a thrown JS value: whether it is a
`GoveeApiError` (and then its `code` and `goveeCode`), whether it is some
other `Error` (and then its name, whether its message contains "timeout",
and whether it is a `TypeError`), or not an `Error` at all. The backoff
durations carry jitter from `Math.random` and matter to no claim; the
action trace records which attempts ran and after which attempts the
handler slept. -/

/-- The `ErrorCode` enum of errors.ts. -/
inductive ErrorCode where
  | UNAUTHORIZED
  | INVALID_TOKEN
  | INVALID_REQUEST
  | MISSING_PARAMETER
  | INVALID_PARAMETER
  | DEVICE_NOT_FOUND
  | DEVICE_NOT_CONTROLLABLE
  | COMMAND_NOT_SUPPORTED
  | GOVEE_API_ERROR
  | GOVEE_RATE_LIMITED
  | GOVEE_UNAVAILABLE
  | INTERNAL_ERROR
deriving DecidableEq, Repr

/-- A thrown JS value, as observed by the retry module. A `GoveeApiError`
instance has name "GoveeApiError" (never "AbortError") and is never a
`TypeError`, so only its message's "timeout" test survives into the
fall-through checks. -/
inductive Thrown where
  | govee (code : ErrorCode) (goveeCode : Option Int) (msgHasTimeout : Bool)
  | error (nameIsAbort : Bool) (msgHasTimeout : Bool) (isTypeError : Bool)
  | nonError (msgHasTimeout : Bool)
deriving DecidableEq, Repr

/-- Mirror of `isRetryableError` (retry module): 429 / rate-limited code,
then `GOVEE_UNAVAILABLE`, then the 4xx cut-off, then the generic `Error`
checks (`AbortError` name, "timeout" in the message, `TypeError`); a
non-`Error` value reaches no check and is not retryable. -/
def isRetryableError : Thrown → Bool
  | .govee code goveeCode msgT =>
    if goveeCode == some 429 || code == .GOVEE_RATE_LIMITED then true
    else if code == .GOVEE_UNAVAILABLE then true
    else if (match goveeCode with
             | some n => decide (400 ≤ n) && decide (n < 500)
             | none => false) then false
    else msgT
  | .error nameAbort msgT isType => nameAbort || msgT || isType
  | .nonError _ => false

/-- Mirror of `error instanceof Error ? error : new Error(String(error))`:
a non-`Error` value is wrapped into a plain `Error` whose message is its
string rendering. -/
def wrapError : Thrown → Thrown
  | .nonError msgT => .error false msgT false
  | e => e

/-- Mirror of `GoveeApiError.rateLimited()`: the canonical rate-limited
error (`GOVEE_RATE_LIMITED`, goveeCode 429, fixed message). -/
def rateLimited : Thrown :=
  .govee .GOVEE_RATE_LIMITED (some 429) false

/-- What `execute` throws once retries are exhausted: the wrapped last
error, remapped to the canonical rate-limited error exactly when it is a
`GoveeApiError` with code `GOVEE_RATE_LIMITED`. -/
def exhaustThrow (lastError : Thrown) : Thrown :=
  match wrapError lastError with
  | .govee .GOVEE_RATE_LIMITED _ _ => rateLimited
  | e => e

/-- Outcome of one invocation of the wrapped operation. -/
inductive AttemptOutcome (α : Type) where
  | ok (v : α)
  | threw (e : Thrown)
deriving DecidableEq, Repr

/-- How an `execute` call returns: a value, or a thrown error. -/
inductive ExecOutcome (α : Type) where
  | value (v : α)
  | raised (e : Thrown)
deriving DecidableEq, Repr

/-- Observable actions of the retry loop, tagged with the 0-based attempt
counter: invoking the operation, and sleeping the backoff delay. -/
inductive RAction where
  | invoke (attempt : Nat)
  | backoffSleep (attempt : Nat)
deriving DecidableEq, Repr

/-- Mirror of the loop body of `RetryHandler.execute`, at attempt number
`attempt` with `left` retries remaining (`left = maxRetries - attempt`):
try the operation; on success return its value; on a non-retryable error
throw the original value at once; otherwise break to the exhaustion throw
when no retries remain, or sleep and move to the next attempt. -/
def execGo {α : Type} (op : Nat → AttemptOutcome α) (attempt left : Nat) :
    List RAction × ExecOutcome α :=
  match op attempt with
  | .ok v => ([.invoke attempt], .value v)
  | .threw e =>
    if isRetryableError e then
      match left with
      | 0 => ([.invoke attempt], .raised (exhaustThrow e))
      | left' + 1 =>
        let rest := execGo op (attempt + 1) left'
        (.invoke attempt :: .backoffSleep attempt :: rest.1, rest.2)
    else ([.invoke attempt], .raised e)

/-- Mirror of `RetryHandler.execute` with `maxRetries` configured: the
loop runs attempts `0..maxRetries`. The operation is a function of the
attempt number, giving each invocation's outcome. -/
def execute {α : Type} (maxRetries : Nat) (op : Nat → AttemptOutcome α) :
    List RAction × ExecOutcome α :=
  execGo op 0 maxRetries

/-- Mirror of `RetryResult` (retry module). -/
structure RetryResult (α : Type) where
  success : Bool
  result : Option α := none
  error : Option Thrown := none
  attempts : Nat
deriving DecidableEq, Repr

/-- Mirror of the loop body of `RetryHandler.executeWithResult`: the same
attempts, the same classifier decisions and the same sleeps, but every exit
returns a record: success with the value, or failure with the wrapped
error and the attempt count, with no rate-limited remap. -/
def ewrGo {α : Type} (op : Nat → AttemptOutcome α) (attempt left : Nat) :
    List RAction × RetryResult α :=
  match op attempt with
  | .ok v => ([.invoke attempt], { success := true, result := some v, attempts := attempt + 1 })
  | .threw e =>
    if isRetryableError e then
      match left with
      | 0 =>
        ([.invoke attempt],
         { success := false, error := some (wrapError e), attempts := attempt + 1 })
      | left' + 1 =>
        let rest := ewrGo op (attempt + 1) left'
        (.invoke attempt :: .backoffSleep attempt :: rest.1, rest.2)
    else
      ([.invoke attempt],
       { success := false, error := some (wrapError e), attempts := attempt + 1 })

/-- Mirror of `RetryHandler.executeWithResult`. -/
def executeWithResult {α : Type} (maxRetries : Nat) (op : Nat → AttemptOutcome α) :
    List RAction × RetryResult α :=
  ewrGo op 0 maxRetries

/-- Number of operation invocations in an action trace. -/
def countInvokes (acts : List RAction) : Nat :=
  (acts.filter (fun a => match a with | .invoke _ => true | _ => false)).length

/-! ### TTL/LRU read cache (cache module)

The JS `Map` is modelled as an insertion-ordered association list (head =
oldest position, tail = most recently inserted). `Date.now()` is passed to
each operation as the explicit `now` argument. -/

/-- Mirror of `CacheEntry` (cache module). The cached `value` is opaque. -/
structure CacheEntry where
  value : Nat
  cachedAt : Int
  expiresAt : Int
deriving DecidableEq, Repr

/-- Mirror of the `LRUCache` object: its map and its two knobs. -/
structure LRUCache where
  cache : List (Nat × CacheEntry)
  defaultTtlMs : Int
  maxSize : Nat
deriving DecidableEq, Repr

/-- A fresh cache with the given configuration. -/
def emptyCache (defaultTtlMs : Int) (maxSize : Nat) : LRUCache :=
  { cache := [], defaultTtlMs := defaultTtlMs, maxSize := maxSize }

/-- Mirror of `LRUCache.get`: absent gives `null`; an entry with
`now > expiresAt` is deleted and gives `null`; otherwise the entry is
moved to the most-recently-used end and returned. -/
def cacheGet (now : Int) (k : Nat) (s : LRUCache) : Option CacheEntry × LRUCache :=
  match aGet s.cache k with
  | none => (none, s)
  | some entry =>
    if now > entry.expiresAt then (none, { s with cache := aRemove s.cache k })
    else (some entry, { s with cache := aRemove s.cache k ++ [(k, entry)] })

/-- Mirror of `LRUCache.set`: when at capacity and the key is new, delete
the first key of the map (no-op on an empty map, matching the
`firstKey !== undefined` guard); then delete the key and append the fresh
entry with `expiresAt = now + ttl` at the most-recently-used end. -/
def cacheSet (now : Int) (k : Nat) (v : Nat) (ttlOpt : Option Int) (s : LRUCache) : LRUCache :=
  let ttl := ttlOpt.getD s.defaultTtlMs
  let afterEvict :=
    if s.maxSize ≤ s.cache.length ∧ aGet s.cache k = none then
      match s.cache with
      | [] => s.cache
      | (k0, _) :: _ => aRemove s.cache k0
    else s.cache
  { s with
    cache := aRemove afterEvict k ++ [(k, { value := v, cachedAt := now, expiresAt := now + ttl })] }

/-- Cache operations (get, set, delete, clear). -/
inductive CacheOp where
  | getOp (now : Int) (k : Nat)
  | setOp (now : Int) (k : Nat) (v : Nat) (ttlOpt : Option Int)
  | delOp (k : Nat)
  | clearOp
deriving DecidableEq, Repr

/-- State effect of one cache operation. -/
def stepCache (s : LRUCache) : CacheOp → LRUCache
  | .getOp now k => (cacheGet now k s).2
  | .setOp now k v t => cacheSet now k v t s
  | .delOp k => { s with cache := aRemove s.cache k }
  | .clearOp => { s with cache := [] }

/-- Run a sequence of cache operations. -/
def runCache (s : LRUCache) : List CacheOp → LRUCache
  | [] => s
  | op :: ops => runCache (stepCache s op) ops

/-! ### Recency-instrumented cache

The same machine with a ghost field: each stored entry carries the index
(position in the operation sequence) of the operation that last touched it
(inserted it, overwrote it, or read it back on a non-expired `get`). Its
projection (`tErase`) provably coincides with the plain machine, and in
every reachable state the map is sorted by last touch, so the first key —
the one `set` evicts — is the least recently touched. -/

/-- Drop the ghost touch indices. -/
def tErase (m : List (Nat × CacheEntry × Nat)) : List (Nat × CacheEntry) :=
  m.map (fun p => (p.1, p.2.1))

/-- One instrumented operation, executed as operation number `i`. -/
def stepTCache (maxSize : Nat) (defTtl : Int) (i : Nat) (m : List (Nat × CacheEntry × Nat)) :
    CacheOp → List (Nat × CacheEntry × Nat)
  | .getOp now k =>
    match aGet m k with
    | none => m
    | some et =>
      if now > et.1.expiresAt then aRemove m k
      else aRemove m k ++ [(k, et.1, i)]
  | .setOp now k v t =>
    let ttl := t.getD defTtl
    let afterEvict :=
      if maxSize ≤ m.length ∧ aGet m k = none then
        match m with
        | [] => m
        | (k0, _) :: _ => aRemove m k0
      else m
    aRemove afterEvict k ++ [(k, { value := v, cachedAt := now, expiresAt := now + ttl }, i)]
  | .delOp k => aRemove m k
  | .clearOp => []

/-- Run the instrumented machine, numbering operations from `i`. -/
def runTCache (maxSize : Nat) (defTtl : Int) :
    List (Nat × CacheEntry × Nat) → Nat → List CacheOp → List (Nat × CacheEntry × Nat)
  | m, _, [] => m
  | m, i, op :: ops => runTCache maxSize defTtl (stepTCache maxSize defTtl i m op) (i + 1) ops

/-- The matching condition of the coalescing scan, as a proposition: same
command kind and age within the window. -/
def coalesceMatch (w : Int) (c : QueuedCommand) (e : Entry) : Prop :=
  e.command.type = c.type ∧ c.timestamp - e.command.timestamp ≤ w

instance (w : Int) (c : QueuedCommand) (e : Entry) : Decidable (coalesceMatch w c e) :=
  inferInstanceAs (Decidable (e.command.type = c.type ∧ c.timestamp - e.command.timestamp ≤ w))

/-- Relation between consecutive commands of a burst that keeps each one
mergeable into the entry left by its predecessor: same kind, and enqueued
within the coalesce window of the predecessor's timestamp. -/
def chainable (w : Int) (a b : QueuedCommand) : Prop :=
  a.type = b.type ∧ b.timestamp - a.timestamp ≤ w

instance (w : Int) (a b : QueuedCommand) : Decidable (chainable w a b) :=
  inferInstanceAs (Decidable (a.type = b.type ∧ b.timestamp - a.timestamp ≤ w))

/-! ### Concrete inputs used by witnesses and counterexamples -/

/-- A turn command with payload 1 at time 0 (correlation id 1). -/
def exTurn1 : QueuedCommand :=
  { type := .turn, params := 1, timestamp := 0, correlationId := 1 }

/-- A turn command with payload 2 at time 1 (correlation id 2). -/
def exTurn2 : QueuedCommand :=
  { type := .turn, params := 2, timestamp := 1, correlationId := 2 }

/-- A turn command that occupies the executor in merge scenarios. -/
def exTurn0 : QueuedCommand :=
  { type := .turn, params := 0, timestamp := 0, correlationId := 10 }

/-- First brightness command of the merge scenarios. -/
def exBr1 : QueuedCommand :=
  { type := .brightness, params := 50, timestamp := 0, correlationId := 11 }

/-- Second brightness command of the merge scenarios. -/
def exBr2 : QueuedCommand :=
  { type := .brightness, params := 75, timestamp := 1, correlationId := 12 }

/-- Third brightness command of the merge scenarios. -/
def exBr3 : QueuedCommand :=
  { type := .brightness, params := 100, timestamp := 2, correlationId := 13 }

/-- A plain successful executor result. -/
def exOk : CommandResult := { ok := true }

/-- A result with its `correlationIds` field overwritten (the rewrite that
`combinedResolve` performs). -/
def withIds (r : CommandResult) (ids : List Nat) : CommandResult :=
  { r with correlationIds := some ids }

/-- Cache entry examples for witnesses. -/
def exEntry1 : CacheEntry := { value := 11, cachedAt := 0, expiresAt := 10 }

/-- Second cache entry example. -/
def exEntry2 : CacheEntry := { value := 22, cachedAt := 1, expiresAt := 11 }

/-- A full two-entry cache at capacity 2 with key 2 least recently used. -/
def exCacheFull : LRUCache :=
  { cache := [(2, exEntry2), (1, exEntry1)], defaultTtlMs := 10, maxSize := 2 }

/-- Operation sequence exercising insertion, touch and eviction. -/
def exCacheOps : List CacheOp :=
  [CacheOp.setOp 0 1 11 none, CacheOp.setOp 1 2 22 none,
   CacheOp.getOp 2 1, CacheOp.setOp 3 3 33 none]

/-! ## Theorems -/

theorem upd_same {α : Type} (f : Nat → α) (dev : Nat) (v : α) : upd f dev v dev = v := by
  simp [upd]

theorem upd_other {α : Type} (f : Nat → α) (dev d : Nat) (v : α) (h : d ≠ dev) :
    upd f dev v d = f d := by
  simp [upd, h]

theorem upd_upd {α : Type} (f : Nat → α) (dev : Nat) (v v' : α) :
    upd (upd f dev v) dev v' = upd f dev v' := by
  funext d
  by_cases h : d = dev <;> simp [upd, h]

theorem upd_self {α : Type} (f : Nat → α) (dev : Nat) : upd f dev (f dev) = f := by
  funext d
  by_cases h : d = dev <;> simp [upd, h]

theorem sameTypeWithin_iff (w : Int) (c : QueuedCommand) (e : Entry) :
    sameTypeWithin w e c = true ↔ coalesceMatch w c e := by
  simp [sameTypeWithin, coalesceMatch]

theorem sameTypeWithin_false_iff (w : Int) (c : QueuedCommand) (e : Entry) :
    sameTypeWithin w e c = false ↔ ¬ coalesceMatch w c e := by
  rw [← sameTypeWithin_iff]
  simp

theorem tryCoalesce_cons (w : Int) (c : QueuedCommand) (x : Entry) (rest : List Entry) :
    tryCoalesce w c (x :: rest) =
      match tryCoalesce w c rest with
      | some r => some (x :: r)
      | none => if sameTypeWithin w x c then some (mergeEntry x c :: rest) else none := rfl

theorem tryCoalesce_eq_none_iff (w : Int) (c : QueuedCommand) :
    ∀ q : List Entry, tryCoalesce w c q = none ↔ ∀ e ∈ q, ¬ coalesceMatch w c e := by
  intro q
  induction q with
  | nil => simp [tryCoalesce]
  | cons x rest ih =>
    rw [tryCoalesce_cons]
    cases hr : tryCoalesce w c rest with
    | some r =>
      simp only [List.mem_cons]
      constructor
      · intro h
        exact absurd h (by simp)
      · intro h
        have hrest : ∀ e ∈ rest, ¬ coalesceMatch w c e := fun e he => h e (Or.inr he)
        have hnone := (ih).mpr hrest
        rw [hr] at hnone
        exact absurd hnone (by simp)
    | none =>
      have hrest : ∀ e ∈ rest, ¬ coalesceMatch w c e := (ih).mp hr
      by_cases hx : sameTypeWithin w x c
      · simp only [hx, if_true]
        constructor
        · intro h
          exact absurd h (by simp)
        · intro h
          exact absurd ((sameTypeWithin_iff w c x).mp hx) (h x (List.mem_cons_self x rest))
      · simp only [Bool.not_eq_true] at hx
        simp only [hx, Bool.false_eq_true, if_false, true_iff]
        intro e he
        rcases List.mem_cons.mp he with h | h
        · subst h
          exact ((sameTypeWithin_false_iff w c e).mp hx)
        · exact hrest e h

theorem tryCoalesce_eq_some_iff (w : Int) (c : QueuedCommand) :
    ∀ q q' : List Entry,
      tryCoalesce w c q = some q' ↔
        ∃ pre e post, q = pre ++ e :: post ∧ coalesceMatch w c e
          ∧ (∀ e' ∈ post, ¬ coalesceMatch w c e')
          ∧ q' = pre ++ mergeEntry e c :: post := by
  intro q
  induction q with
  | nil =>
    intro q'
    simp [tryCoalesce]
  | cons x rest ih =>
    intro q'
    rw [tryCoalesce_cons]
    cases hr : tryCoalesce w c rest with
    | some r =>
      obtain ⟨pre, e, post, hq, hm, hpost, hr'⟩ := (ih r).mp hr
      constructor
      · intro h
        have hq' : q' = x :: r := by
          simpa using h.symm
        exact ⟨x :: pre, e, post, by rw [hq]; rfl, hm, hpost, by rw [hq', hr']; rfl⟩
      · rintro ⟨pre2, e2, post2, hq2, hm2, hpost2, hq'2⟩
        cases pre2 with
        | nil =>
          simp only [List.nil_append] at hq2 hq'2
          cases hq2
          have : tryCoalesce w c rest = none :=
            (tryCoalesce_eq_none_iff w c rest).mpr hpost2
          rw [hr] at this
          exact absurd this (by simp)
        | cons y pre2' =>
          simp only [List.cons_append, List.cons.injEq] at hq2 hq'2
          obtain ⟨hxy, hrest⟩ := hq2
          have : tryCoalesce w c rest = some (pre2' ++ mergeEntry e2 c :: post2) :=
            (ih _).mpr ⟨pre2', e2, post2, hrest, hm2, hpost2, rfl⟩
          rw [hr] at this
          have hrr : r = pre2' ++ mergeEntry e2 c :: post2 := by
            simpa using this
          simp only [hq'2, hxy, hrr]
    | none =>
      have hrest : ∀ e ∈ rest, ¬ coalesceMatch w c e := (tryCoalesce_eq_none_iff w c rest).mp hr
      by_cases hx : sameTypeWithin w x c
      · simp only [hx, if_true]
        constructor
        · intro h
          have hq' : q' = mergeEntry x c :: rest := by simpa using h.symm
          exact ⟨[], x, rest, rfl, (sameTypeWithin_iff w c x).mp hx, hrest, by simp [hq']⟩
        · rintro ⟨pre2, e2, post2, hq2, hm2, hpost2, hq'2⟩
          cases pre2 with
          | nil =>
            simp only [List.nil_append, List.cons.injEq] at hq2
            obtain ⟨hxe, hrp⟩ := hq2
            simp [hq'2, ← hxe, ← hrp]
          | cons y pre2' =>
            simp only [List.cons_append, List.cons.injEq] at hq2
            obtain ⟨hxy, hrest2⟩ := hq2
            exfalso
            exact hrest e2 (by rw [hrest2]; exact List.mem_append_right _ (List.mem_cons_self _ _)) hm2
      · simp only [Bool.not_eq_true] at hx
        simp only [hx, Bool.false_eq_true, if_false]
        constructor
        · intro h
          exact absurd h (by simp)
        · rintro ⟨pre2, e2, post2, hq2, hm2, hpost2, hq'2⟩
          exfalso
          cases pre2 with
          | nil =>
            simp only [List.nil_append, List.cons.injEq] at hq2
            obtain ⟨hxe, hrp⟩ := hq2
            exact ((sameTypeWithin_false_iff w c x).mp hx) (hxe ▸ hm2)
          | cons y pre2' =>
            simp only [List.cons_append, List.cons.injEq] at hq2
            obtain ⟨hxy, hrest2⟩ := hq2
            exact hrest e2 (by rw [hrest2]; exact List.mem_append_right _ (List.mem_cons_self _ _)) hm2

/-- C6: when a new command coalesces, the merge target is the first entry
found scanning the waiting list from most-recently-added backward whose
kind equals the new command's kind and whose timestamp difference from the
new command is within the coalesce window (no later-added entry matches);
that entry is replaced in place by an entry whose command carries the new
payload, the new command's correlation id as primary, and the merged-id
list `[old primary id, ...old merged ids]`. -/
theorem coalesce_merge_rule (w : Int) (c : QueuedCommand) (q q' : List Entry) (e : Entry) :
    (tryCoalesce w c q = some q' ↔
      ∃ pre em post, q = pre ++ em :: post
        ∧ (em.command.type = c.type ∧ c.timestamp - em.command.timestamp ≤ w)
        ∧ (∀ e' ∈ post, ¬ (e'.command.type = c.type ∧ c.timestamp - e'.command.timestamp ≤ w))
        ∧ q' = pre ++ mergeEntry em c :: post)
    ∧ (mergeEntry e c).command.params = c.params
    ∧ (mergeEntry e c).command.correlationId = c.correlationId
    ∧ (mergeEntry e c).command.mergedCorrelationIds
        = e.command.correlationId :: e.command.mergedCorrelationIds
    ∧ (mergeEntry e c).command.type = c.type
    ∧ (mergeEntry e c).command.timestamp = c.timestamp := by
  refine ⟨?_, rfl, rfl, rfl, rfl, rfl⟩
  exact tryCoalesce_eq_some_iff w c q q'

theorem run_append (w : Int) (s : QueueState) (l₁ l₂ : List Event) :
    run w s (l₁ ++ l₂) = run w (run w s l₁) l₂ := by
  induction l₁ generalizing s with
  | nil => rfl
  | cons ev evs ih => simp [run, ih]

theorem tryCoalesce_snoc (w : Int) (c : QueuedCommand) (e : Entry)
    (h : sameTypeWithin w e c = true) :
    ∀ q : List Entry, tryCoalesce w c (q ++ [e]) = some (q ++ [mergeEntry e c]) := by
  intro q
  induction q with
  | nil => simp [tryCoalesce, h]
  | cons x rest ih =>
    rw [List.cons_append, tryCoalesce_cons, ih]
    rfl

theorem mergeEntry_type (e : Entry) (c : QueuedCommand) :
    (mergeEntry e c).command.type = c.type := rfl

theorem mergeEntry_timestamp (e : Entry) (c : QueuedCommand) :
    (mergeEntry e c).command.timestamp = c.timestamp := rfl

theorem enq_coalesced_state (w : Int) (dev : Nat) (c : QueuedCommand) (s : QueueState)
    (q' : List Entry) (hw : 0 < w) (h : tryCoalesce w c (s.waiting dev) = some q') :
    enqStep w dev c s = { s with waiting := upd s.waiting dev q' } := by
  simp [enqStep, hw, h]

/-- Enqueueing a chainable burst of commands into a queue whose freshest
waiting entry they merge into (while the device is busy, so no drain
starts) only rewrites that entry in place. -/
theorem enq_burst (w : Int) (dev : Nat) (hw : 0 < w) :
    ∀ (cs : List QueuedCommand) (s : QueueState) (q₀ : List Entry) (e : Entry),
      s.processing dev = true →
      s.waiting dev = q₀ ++ [e] →
      List.Chain (chainable w) e.command cs →
      run w s (cs.map (Event.enq dev))
        = { s with waiting := upd s.waiting dev (q₀ ++ [foldMerge e cs]) } := by
  intro cs
  induction cs with
  | nil =>
    intro s q₀ e hp hq _
    simp only [List.map_nil, run, foldMerge, List.foldl_nil]
    rw [← hq, upd_self]
  | cons c' cs' ih =>
    intro s q₀ e hp hq hchain
    rcases hchain with _ | ⟨hrel, hchain'⟩
    have hmatch : sameTypeWithin w e c' = true := by
      rw [sameTypeWithin_iff]
      exact hrel
    have hco : tryCoalesce w c' (s.waiting dev) = some (q₀ ++ [mergeEntry e c']) := by
      rw [hq]
      exact tryCoalesce_snoc w c' e hmatch q₀
    have hstep : stepE w (Event.enq dev c') s
        = { s with waiting := upd s.waiting dev (q₀ ++ [mergeEntry e c']) } := by
      simpa [stepE] using enq_coalesced_state w dev c' s _ hw hco
    have hchain'' : List.Chain (chainable w) (mergeEntry e c').command cs' := by
      have : chainable w (mergeEntry e c').command = chainable w c' := by
        funext b
        simp [chainable, mergeEntry]
      cases cs' with
      | nil => exact List.Chain.nil
      | cons d ds =>
        rcases hchain' with _ | ⟨hrel2, hch⟩
        exact List.Chain.cons (by rw [this]; exact hrel2) hch
    have := ih { s with waiting := upd s.waiting dev (q₀ ++ [mergeEntry e c']) }
      q₀ (mergeEntry e c') hp (by simp [upd_same]) hchain''
    simp only [List.map_cons, run, hstep]
    rw [this]
    simp only [upd_upd]
    rfl

/-- While an execution is in flight, each fulfilment resolves it and hands
the executor exactly the head of the waiting list, so feeding as many
results as there are waiting entries invokes them all in queue order. -/
theorem drain_fifo (w : Int) (dev : Nat) :
    ∀ (rs : List CommandResult) (s : QueueState) (e : Entry),
      s.executing dev = some e →
      rs.length = (s.waiting dev).length →
      (run w s (rs.map (Event.okE dev))).invocations
        = s.invocations ++ (s.waiting dev).map (fun en => (dev, en.command)) := by
  intro rs
  induction rs with
  | nil =>
    intro s e hex hlen
    have : s.waiting dev = [] := List.length_eq_zero.mp hlen.symm
    simp [run, this]
  | cons r rs' ih =>
    intro s e hex hlen
    cases hwq : s.waiting dev with
    | nil => simp [hwq] at hlen
    | cons en t =>
      have hstep : stepE w (Event.okE dev r) s
          = { s with
              resolvedL := s.resolvedL ++ settleResolve e.resolve r
              executing := upd (upd s.executing dev none) dev (some en)
              waiting := upd s.waiting dev t
              invocations := s.invocations ++ [(dev, en.command)] } := by
        simp only [stepE, okStep, hex, startNext, hwq]
      have hlen' : rs'.length = t.length := by
        rw [hwq] at hlen
        simpa using hlen
      have := ih { s with
              resolvedL := s.resolvedL ++ settleResolve e.resolve r
              executing := upd (upd s.executing dev none) dev (some en)
              waiting := upd s.waiting dev t
              invocations := s.invocations ++ [(dev, en.command)] }
        en (by simp [upd_same]) (by simpa [upd_same] using hlen')
      simp only [List.map_cons, run, hstep]
      rw [this]
      simp [hwq, upd_same, List.append_assoc]

theorem foldMerge_params :
    ∀ (cs : List QueuedCommand) (e : Entry) (h : cs ≠ []),
      (foldMerge e cs).command.params = (cs.getLast h).params := by
  intro cs
  induction cs with
  | nil => intro e h; exact absurd rfl h
  | cons c' cs' ih =>
    intro e h
    cases cs' with
    | nil => simp [foldMerge, mergeEntry]
    | cons d ds =>
      have := ih (mergeEntry e c') (by simp)
      rw [List.getLast_cons (by simp)]
      simpa [foldMerge] using this

/-- C1, amended: a burst of same-kind commands whose consecutive
timestamps lie within the coalesce window, enqueued for a device while an
earlier command is mid-execution (and whose first command does not merge
into an older waiting entry), collapses into a single waiting entry, and
once the queue drains the executor is invoked exactly once for the whole
burst, with the payload of the last command (last-write-wins). -/
theorem burst_single_invocation (w : Int) (s : QueueState) (dev : Nat) (e0 : Entry)
    (c : QueuedCommand) (cs : List QueuedCommand) (rs : List CommandResult)
    (hw : 0 < w)
    (hproc : s.processing dev = true)
    (hexec : s.executing dev = some e0)
    (hfresh : tryCoalesce w c (s.waiting dev) = none)
    (hchain : List.Chain (chainable w) c cs)
    (hrs : rs.length = (s.waiting dev).length + 1) :
    (run w s ((c :: cs).map (Event.enq dev) ++ rs.map (Event.okE dev))).invocations
      = s.invocations ++ (s.waiting dev).map (fun en => (dev, en.command))
        ++ [(dev, (foldMerge (baseEntry c) cs).command)]
    ∧ (foldMerge (baseEntry c) cs).command.params
        = ((c :: cs).getLast (List.cons_ne_nil c cs)).params := by
  constructor
  · have hstep1 : stepE w (Event.enq dev c) s
        = { s with waiting := upd s.waiting dev (s.waiting dev ++ [baseEntry c]) } := by
      simp [stepE, enqStep, hfresh, hw, hproc]
    have hburst := enq_burst w dev hw cs
      { s with waiting := upd s.waiting dev (s.waiting dev ++ [baseEntry c]) }
      (s.waiting dev) (baseEntry c) hproc (by simp [upd_same])
      (by simpa [baseEntry] using hchain)
    have hmid : run w s ((c :: cs).map (Event.enq dev))
        = { s with waiting := upd s.waiting dev (s.waiting dev ++ [foldMerge (baseEntry c) cs]) } := by
      simp only [List.map_cons, run, hstep1]
      rw [hburst]
      simp only [upd_upd]
    rw [run_append, hmid]
    have := drain_fifo w dev rs
      { s with waiting := upd s.waiting dev (s.waiting dev ++ [foldMerge (baseEntry c) cs]) }
      e0 hexec (by simp [upd_same]; omega)
    rw [this]
    simp [upd_same, List.append_assoc]
  · cases hcs : cs with
    | nil => simp [foldMerge, baseEntry]
    | cons d ds =>
      rw [List.getLast_cons (by simp)]
      exact foldMerge_params (d :: ds) (baseEntry c) (by simp)

/-- C1, counterexample to the claim as stated: with a 100ms window, two
same-kind commands 1ms apart enqueued on an idle device produce two
executor invocations, not one — the first command starts executing
immediately and is no longer a waiting entry when the second arrives. -/
theorem burst_counterexample :
    exTurn1.type = exTurn2.type
    ∧ exTurn2.timestamp - exTurn1.timestamp ≤ 100
    ∧ (run 100 initState
        [Event.enq 0 exTurn1, Event.enq 0 exTurn2,
         Event.okE 0 exOk, Event.okE 0 exOk]).invocations
        = [(0, exTurn1), (0, exTurn2)] := by
  refine ⟨rfl, by decide, by decide⟩

/-- Witness for the amended C1 theorem: a device busy with a turn command
receives three brightness commands, which merge into one waiting entry and
produce exactly one further invocation, carrying the last payload. -/
theorem burst_single_invocation_witness :
    (run 100 (run 100 initState [Event.enq 0 exTurn0])
        ((exBr1 :: [exBr2, exBr3]).map (Event.enq 0) ++ [exOk].map (Event.okE 0))).invocations
      = (run 100 initState [Event.enq 0 exTurn0]).invocations
        ++ ((run 100 initState [Event.enq 0 exTurn0]).waiting 0).map (fun en => (0, en.command))
        ++ [(0, (foldMerge (baseEntry exBr1) [exBr2, exBr3]).command)]
    ∧ (foldMerge (baseEntry exBr1) [exBr2, exBr3]).command.params
        = ((exBr1 :: [exBr2, exBr3]).getLast (List.cons_ne_nil exBr1 [exBr2, exBr3])).params :=
  burst_single_invocation 100 (run 100 initState [Event.enq 0 exTurn0]) 0 (baseEntry exTurn0)
    exBr1 [exBr2, exBr3] [exOk] (by decide) (by decide) (by decide) (by decide)
    (List.Chain.cons (by constructor <;> decide)
      (List.Chain.cons (by constructor <;> decide) List.Chain.nil))
    (by decide)

theorem stepE_enq (w : Int) (dev : Nat) (c : QueuedCommand) (s : QueueState) :
    stepE w (Event.enq dev c) s = enqStep w dev c s := rfl

theorem stepE_ok (w : Int) (dev : Nat) (r : CommandResult) (s : QueueState) :
    stepE w (Event.okE dev r) s = okStep dev r s := rfl

theorem stepE_err (w : Int) (dev : Nat) (m : Option Nat) (s : QueueState) :
    stepE w (Event.errE dev m) s = errStep dev m s := rfl

theorem startNext_nil (dev : Nat) (s : QueueState) (h : s.waiting dev = []) :
    startNext dev s = { s with processing := upd s.processing dev false } := by
  simp only [startNext, h]

theorem startNext_cons (dev : Nat) (s : QueueState) (e : Entry) (rest : List Entry)
    (h : s.waiting dev = e :: rest) :
    startNext dev s =
      { s with
        waiting := upd s.waiting dev rest
        executing := upd s.executing dev (some e)
        invocations := s.invocations ++ [(dev, e.command)] } := by
  simp only [startNext, h]

theorem enqStep_merge (w : Int) (dev : Nat) (c : QueuedCommand) (s : QueueState)
    (q' : List Entry)
    (h : (if 0 < w then tryCoalesce w c (s.waiting dev) else none) = some q') :
    enqStep w dev c s = { s with waiting := upd s.waiting dev q' } := by
  simp only [enqStep]
  rw [h]

theorem enqStep_push_busy (w : Int) (dev : Nat) (c : QueuedCommand) (s : QueueState)
    (hn : (if 0 < w then tryCoalesce w c (s.waiting dev) else none) = none)
    (hp : s.processing dev = true) :
    enqStep w dev c s
      = { s with waiting := upd s.waiting dev (s.waiting dev ++ [baseEntry c]) } := by
  simp only [enqStep]
  rw [hn]
  simp only [hp, if_true]

theorem enqStep_push_idle (w : Int) (dev : Nat) (c : QueuedCommand) (s : QueueState)
    (hn : (if 0 < w then tryCoalesce w c (s.waiting dev) else none) = none)
    (hp : s.processing dev = false) :
    enqStep w dev c s
      = startNext dev
          { s with
            waiting := upd s.waiting dev (s.waiting dev ++ [baseEntry c])
            processing := upd s.processing dev true } := by
  simp only [enqStep]
  rw [hn]
  simp only [hp, Bool.false_eq_true, if_false]

theorem okStep_none (dev : Nat) (r : CommandResult) (s : QueueState)
    (h : s.executing dev = none) : okStep dev r s = s := by
  simp only [okStep, h]

theorem okStep_some (dev : Nat) (r : CommandResult) (s : QueueState) (e : Entry)
    (h : s.executing dev = some e) :
    okStep dev r s
      = startNext dev
          { s with
            resolvedL := s.resolvedL ++ settleResolve e.resolve r
            executing := upd s.executing dev none } := by
  simp only [okStep, h]

theorem errStep_none (dev : Nat) (m : Option Nat) (s : QueueState)
    (h : s.executing dev = none) : errStep dev m s = s := by
  simp only [errStep, h]

theorem errStep_some (dev : Nat) (m : Option Nat) (s : QueueState) (e : Entry)
    (h : s.executing dev = some e) :
    errStep dev m s
      = startNext dev
          { s with
            rejectedL := s.rejectedL ++ (rejectCallers e.resolve).map
              (fun i => (i, match m with
                | some k => RejReason.execError k
                | none => RejReason.unknownExec))
            executing := upd s.executing dev none } := by
  simp only [errStep, h]

theorem startNext_frame (dev d : Nat) (s : QueueState) (h : d ≠ dev) :
    (startNext dev s).waiting d = s.waiting d
    ∧ (startNext dev s).processing d = s.processing d
    ∧ (startNext dev s).executing d = s.executing d := by
  cases hwq : s.waiting dev with
  | nil => rw [startNext_nil dev s hwq]; simp [upd_other _ _ _ _ h]
  | cons e rest => rw [startNext_cons dev s e rest hwq]; simp [upd_other _ _ _ _ h]

theorem startNext_inv (dev : Nat) (s s' : QueueState) (e : Entry)
    (hW : s'.waiting = s.waiting) (hP : s'.processing = s.processing)
    (hE : s'.executing = upd s.executing dev none)
    (hex : s.executing dev = some e)
    (h : ∀ d, s.processing d = false → s.executing d = none ∧ s.waiting d = []) :
    ∀ d, (startNext dev s').processing d = false →
      (startNext dev s').executing d = none ∧ (startNext dev s').waiting d = [] := by
  intro d hd
  cases hwq : s.waiting dev with
  | nil =>
    rw [startNext_nil dev s' (by rw [hW]; exact hwq)] at hd ⊢
    by_cases hdd : d = dev
    · subst hdd
      exact ⟨by simp [hE, upd_same], by rw [hW]; exact hwq⟩
    · simp only at hd
      rw [upd_other _ _ _ _ hdd, hP] at hd
      obtain ⟨he, hq⟩ := h d hd
      exact ⟨by simp only; rw [hE, upd_other _ _ _ _ hdd]; exact he, by simp only; rw [hW]; exact hq⟩
  | cons en t =>
    rw [startNext_cons dev s' en t (by rw [hW]; exact hwq)] at hd ⊢
    simp only at hd
    rw [hP] at hd
    obtain ⟨he, hq⟩ := h d hd
    by_cases hdd : d = dev
    · subst hdd
      rw [hex] at he
      exact absurd he (by simp)
    · refine ⟨?_, ?_⟩
      · simp only
        rw [upd_other _ _ _ _ hdd, hE, upd_other _ _ _ _ hdd]
        exact he
      · simp only
        rw [upd_other _ _ _ _ hdd, hW]
        exact hq

theorem qinv_step (w : Int) (ev : Event) (s : QueueState)
    (h : ∀ d, s.processing d = false → s.executing d = none ∧ s.waiting d = []) :
    ∀ d, (stepE w ev s).processing d = false →
      (stepE w ev s).executing d = none ∧ (stepE w ev s).waiting d = [] := by
  cases ev with
  | enq dev c =>
    intro d hd
    rw [stepE_enq] at hd ⊢
    cases hco : (if 0 < w then tryCoalesce w c (s.waiting dev) else none) with
    | some q' =>
      rw [enqStep_merge w dev c s q' hco] at hd ⊢
      simp only at hd ⊢
      obtain ⟨he, hq⟩ := h d hd
      by_cases hdd : d = dev
      · subst hdd
        rw [hq] at hco
        exfalso
        by_cases hw : 0 < w
        · rw [if_pos hw] at hco
          simp [tryCoalesce] at hco
        · rw [if_neg hw] at hco
          exact absurd hco (by simp)
      · exact ⟨he, by rw [upd_other _ _ _ _ hdd]; exact hq⟩
    | none =>
      by_cases hp : s.processing dev
      · rw [enqStep_push_busy w dev c s hco hp] at hd ⊢
        simp only at hd ⊢
        obtain ⟨he, hq⟩ := h d hd
        by_cases hdd : d = dev
        · subst hdd
          rw [hp] at hd
          exact absurd hd (by simp)
        · exact ⟨he, by rw [upd_other _ _ _ _ hdd]; exact hq⟩
      · rw [Bool.not_eq_true] at hp
        rw [enqStep_push_idle w dev c s hco hp] at hd ⊢
        cases hwq : s.waiting dev with
        | nil =>
          rw [startNext_cons dev _ (baseEntry c) [] (by simp [upd_same, hwq])] at hd ⊢
          dsimp only at hd ⊢
          by_cases hdd : d = dev
          · subst hdd
            rw [upd_same] at hd
            exact absurd hd (by simp)
          · rw [upd_other _ _ _ _ hdd] at hd
            obtain ⟨he, hq⟩ := h d hd
            exact ⟨by rw [upd_other _ _ _ _ hdd]; exact he,
                   by rw [upd_other _ _ _ _ hdd, upd_other _ _ _ _ hdd]; exact hq⟩
        | cons x xs =>
          rw [startNext_cons dev _ x (xs ++ [baseEntry c]) (by simp [upd_same, hwq])] at hd ⊢
          dsimp only at hd ⊢
          by_cases hdd : d = dev
          · subst hdd
            rw [upd_same] at hd
            exact absurd hd (by simp)
          · rw [upd_other _ _ _ _ hdd] at hd
            obtain ⟨he, hq⟩ := h d hd
            exact ⟨by rw [upd_other _ _ _ _ hdd]; exact he,
                   by rw [upd_other _ _ _ _ hdd, upd_other _ _ _ _ hdd]; exact hq⟩
  | okE dev r =>
    cases hex : s.executing dev with
    | none =>
      intro d
      rw [stepE_ok, okStep_none dev r s hex]
      exact h d
    | some e =>
      intro d
      rw [stepE_ok, okStep_some dev r s e hex]
      exact startNext_inv dev s
        { s with
          resolvedL := s.resolvedL ++ settleResolve e.resolve r
          executing := upd s.executing dev none } e rfl rfl rfl hex h d
  | errE dev m =>
    cases hex : s.executing dev with
    | none =>
      intro d
      rw [stepE_err, errStep_none dev m s hex]
      exact h d
    | some e =>
      intro d
      rw [stepE_err, errStep_some dev m s e hex]
      exact startNext_inv dev s
        { s with
          rejectedL := s.rejectedL ++ (rejectCallers e.resolve).map
            (fun i => (i, match m with
              | some k => RejReason.execError k
              | none => RejReason.unknownExec))
          executing := upd s.executing dev none } e rfl rfl rfl hex h d

theorem qinv_run (w : Int) (tr : List Event) :
    ∀ s : QueueState,
      (∀ d, s.processing d = false → s.executing d = none ∧ s.waiting d = []) →
      ∀ d, (run w s tr).processing d = false →
        (run w s tr).executing d = none ∧ (run w s tr).waiting d = [] := by
  induction tr with
  | nil => intro s h; exact h
  | cons ev evs ih =>
    intro s h
    exact ih (stepE w ev s) (qinv_step w ev s h)

/-- C2: the drain guard and FIFO ordering. (1) In every reachable state of
a `DeviceQueue`, whenever a device's processing flag is down there is
neither an in-flight execution nor a waiting entry for it, so a drain loop
is running exactly while the flag is up. (2) While the flag is up, a
further `enqueue` (whose `processQueue` returns at the guard) invokes no
executor and leaves the flag and the in-flight execution untouched.
(3,4) Each executor settlement hands the executor exactly the head of the
waiting list, after settling the finished entry — entries run in FIFO
order of their queue positions. (5) An `enqueue` while the flag is up
either appends at the tail or merges into an existing entry in place,
preserving all positions. (6) Events of one device never touch another
device's waiting list, flag or in-flight execution: targets drain
independently. -/
theorem queue_drain_guard_fifo (w : Int) :
    (∀ (tr : List Event) (d : Nat),
      (run w initState tr).processing d = false →
        (run w initState tr).executing d = none ∧ (run w initState tr).waiting d = [])
    ∧ (∀ (s : QueueState) (dev : Nat) (c : QueuedCommand),
        s.processing dev = true →
          (enqStep w dev c s).invocations = s.invocations
          ∧ (enqStep w dev c s).executing = s.executing
          ∧ (enqStep w dev c s).processing = s.processing)
    ∧ (∀ (s : QueueState) (dev : Nat) (r : CommandResult) (e : Entry),
        s.executing dev = some e →
          (okStep dev r s).waiting dev = (s.waiting dev).tail
          ∧ (okStep dev r s).invocations
              = s.invocations ++ ((s.waiting dev).take 1).map (fun en => (dev, en.command))
          ∧ (okStep dev r s).resolvedL = s.resolvedL ++ settleResolve e.resolve r)
    ∧ (∀ (s : QueueState) (dev : Nat) (m : Option Nat) (e : Entry),
        s.executing dev = some e →
          (errStep dev m s).waiting dev = (s.waiting dev).tail
          ∧ (errStep dev m s).invocations
              = s.invocations ++ ((s.waiting dev).take 1).map (fun en => (dev, en.command)))
    ∧ (∀ (s : QueueState) (dev : Nat) (c : QueuedCommand),
        s.processing dev = true →
          ((enqStep w dev c s).waiting dev = s.waiting dev ++ [baseEntry c]
           ∨ ∃ pre e post, s.waiting dev = pre ++ e :: post
               ∧ (enqStep w dev c s).waiting dev = pre ++ mergeEntry e c :: post))
    ∧ (∀ (s : QueueState) (dev d : Nat) (c : QueuedCommand) (r : CommandResult) (m : Option Nat),
        d ≠ dev →
          (enqStep w dev c s).waiting d = s.waiting d
          ∧ (enqStep w dev c s).processing d = s.processing d
          ∧ (enqStep w dev c s).executing d = s.executing d
          ∧ (okStep dev r s).waiting d = s.waiting d
          ∧ (okStep dev r s).processing d = s.processing d
          ∧ (okStep dev r s).executing d = s.executing d
          ∧ (errStep dev m s).waiting d = s.waiting d
          ∧ (errStep dev m s).processing d = s.processing d
          ∧ (errStep dev m s).executing d = s.executing d) := by
  refine ⟨?_, ?_, ?_, ?_, ?_, ?_⟩
  · intro tr d
    exact qinv_run w tr initState (fun d _ => ⟨rfl, rfl⟩) d
  · intro s dev c hp
    cases hco : (if 0 < w then tryCoalesce w c (s.waiting dev) else none) with
    | some q' =>
      rw [enqStep_merge w dev c s q' hco]
      exact ⟨rfl, rfl, rfl⟩
    | none =>
      rw [enqStep_push_busy w dev c s hco hp]
      exact ⟨rfl, rfl, rfl⟩
  · intro s dev r e hex
    rw [okStep_some dev r s e hex]
    cases hwq : s.waiting dev with
    | nil =>
      rw [startNext_nil dev _ (by simpa using hwq)]
      simp [hwq]
    | cons en t =>
      rw [startNext_cons dev _ en t (by simpa using hwq)]
      simp [hwq, upd_same, upd_upd]
  · intro s dev m e hex
    rw [errStep_some dev m s e hex]
    cases hwq : s.waiting dev with
    | nil =>
      rw [startNext_nil dev _ (by simpa using hwq)]
      simp [hwq]
    | cons en t =>
      rw [startNext_cons dev _ en t (by simpa using hwq)]
      simp [hwq, upd_same, upd_upd]
  · intro s dev c hp
    cases hco : (if 0 < w then tryCoalesce w c (s.waiting dev) else none) with
    | some q' =>
      rw [enqStep_merge w dev c s q' hco]
      right
      have hsome : tryCoalesce w c (s.waiting dev) = some q' := by
        by_cases hw : 0 < w
        · rw [if_pos hw] at hco; exact hco
        · rw [if_neg hw] at hco; exact absurd hco (by simp)
      obtain ⟨pre, e, post, hq, _, _, hq'⟩ := (tryCoalesce_eq_some_iff w c _ _).mp hsome
      exact ⟨pre, e, post, hq, by simp [upd_same, hq']⟩
    | none =>
      rw [enqStep_push_busy w dev c s hco hp]
      left
      simp [upd_same]
  · intro s dev d c r m hdd
    refine ⟨?_, ?_, ?_, ?_, ?_, ?_, ?_, ?_, ?_⟩
    · cases hco : (if 0 < w then tryCoalesce w c (s.waiting dev) else none) with
      | some q' => rw [enqStep_merge w dev c s q' hco]; simp [upd_other _ _ _ _ hdd]
      | none =>
        by_cases hp : s.processing dev
        · rw [enqStep_push_busy w dev c s hco hp]; simp [upd_other _ _ _ _ hdd]
        · rw [Bool.not_eq_true] at hp
          rw [enqStep_push_idle w dev c s hco hp]
          rw [(startNext_frame dev d _ hdd).1]
          simp [upd_other _ _ _ _ hdd]
    · cases hco : (if 0 < w then tryCoalesce w c (s.waiting dev) else none) with
      | some q' => rw [enqStep_merge w dev c s q' hco]
      | none =>
        by_cases hp : s.processing dev
        · rw [enqStep_push_busy w dev c s hco hp]
        · rw [Bool.not_eq_true] at hp
          rw [enqStep_push_idle w dev c s hco hp]
          rw [(startNext_frame dev d _ hdd).2.1]
          simp [upd_other _ _ _ _ hdd]
    · cases hco : (if 0 < w then tryCoalesce w c (s.waiting dev) else none) with
      | some q' => rw [enqStep_merge w dev c s q' hco]
      | none =>
        by_cases hp : s.processing dev
        · rw [enqStep_push_busy w dev c s hco hp]
        · rw [Bool.not_eq_true] at hp
          rw [enqStep_push_idle w dev c s hco hp]
          rw [(startNext_frame dev d _ hdd).2.2]
    · cases hex : s.executing dev with
      | none => rw [okStep_none dev r s hex]
      | some e =>
        rw [okStep_some dev r s e hex]
        rw [(startNext_frame dev d _ hdd).1]
    · cases hex : s.executing dev with
      | none => rw [okStep_none dev r s hex]
      | some e =>
        rw [okStep_some dev r s e hex]
        rw [(startNext_frame dev d _ hdd).2.1]
    · cases hex : s.executing dev with
      | none => rw [okStep_none dev r s hex]
      | some e =>
        rw [okStep_some dev r s e hex]
        rw [(startNext_frame dev d _ hdd).2.2]
        simp [upd_other _ _ _ _ hdd]
    · cases hex : s.executing dev with
      | none => rw [errStep_none dev m s hex]
      | some e =>
        rw [errStep_some dev m s e hex]
        rw [(startNext_frame dev d _ hdd).1]
    · cases hex : s.executing dev with
      | none => rw [errStep_none dev m s hex]
      | some e =>
        rw [errStep_some dev m s e hex]
        rw [(startNext_frame dev d _ hdd).2.1]
    · cases hex : s.executing dev with
      | none => rw [errStep_none dev m s hex]
      | some e =>
        rw [errStep_some dev m s e hex]
        rw [(startNext_frame dev d _ hdd).2.2]
        simp [upd_other _ _ _ _ hdd]

/-- Witness for C2: sample instantiations of its universally quantified
conjuncts at a concrete trace and states. -/
theorem queue_drain_guard_fifo_witness :
    ((run 100 initState [Event.enq 0 exTurn1, Event.okE 0 exOk]).processing 0 = false →
      (run 100 initState [Event.enq 0 exTurn1, Event.okE 0 exOk]).executing 0 = none
      ∧ (run 100 initState [Event.enq 0 exTurn1, Event.okE 0 exOk]).waiting 0 = []) ∧
    ((run 100 initState [Event.enq 0 exTurn1]).processing 0 = true →
      (enqStep 100 0 exTurn2 (run 100 initState [Event.enq 0 exTurn1])).invocations
        = (run 100 initState [Event.enq 0 exTurn1]).invocations
      ∧ (enqStep 100 0 exTurn2 (run 100 initState [Event.enq 0 exTurn1])).executing
        = (run 100 initState [Event.enq 0 exTurn1]).executing
      ∧ (enqStep 100 0 exTurn2 (run 100 initState [Event.enq 0 exTurn1])).processing
        = (run 100 initState [Event.enq 0 exTurn1]).processing) := by
  have h := queue_drain_guard_fifo 100
  exact ⟨h.1 [Event.enq 0 exTurn1, Event.okE 0 exOk] 0, h.2.1 _ 0 exTurn2⟩


theorem settleResolve_ids_present :
    ∀ (ρ : Resolver) (r : CommandResult) (l : List Nat), r.correlationIds = some l →
      ∀ p ∈ settleResolve ρ r, p.2.correlationIds ≠ none := by
  intro ρ
  induction ρ with
  | base callerId =>
    intro r l hr p hp
    simp only [settleResolve, List.mem_singleton] at hp
    subst hp
    simp [hr]
  | combined cmd inner newCallerId ih =>
    intro r l hr p hp
    simp only [settleResolve, List.mem_append, List.mem_singleton] at hp
    rcases hp with hp | hp
    · exact ih _ (cmd.correlationId :: cmd.mergedCorrelationIds) rfl p hp
    · subst hp
      simp

theorem settle_mergeEntry (e : Entry) (c : QueuedCommand) (r : CommandResult) :
    settleResolve (mergeEntry e c).resolve r
      = settleResolve e.resolve
          (withIds r (c.correlationId :: e.command.correlationId :: e.command.mergedCorrelationIds))
        ++ [(c.correlationId,
             withIds r (c.correlationId :: e.command.correlationId :: e.command.mergedCorrelationIds))] := rfl

theorem foldMerge_cons (e : Entry) (c : QueuedCommand) (cs : List QueuedCommand) :
    foldMerge e (c :: cs) = foldMerge (mergeEntry e c) cs := rfl

theorem foldMerge_mergedIds :
    ∀ (cs : List QueuedCommand) (e : Entry) (h : cs ≠ []),
      (foldMerge e cs).command.correlationId = (cs.getLast h).correlationId
      ∧ (foldMerge e cs).command.mergedCorrelationIds
          = (cs.dropLast.map (fun c => c.correlationId)).reverse
            ++ e.command.correlationId :: e.command.mergedCorrelationIds := by
  intro cs
  induction cs with
  | nil => intro e h; exact absurd rfl h
  | cons c' cs' ih =>
    intro e h
    cases cs' with
    | nil => simp [foldMerge, mergeEntry]
    | cons d ds =>
      have hih := ih (mergeEntry e c') (by simp)
      rw [foldMerge_cons]
      constructor
      · rw [List.getLast_cons (by simp)]
        exact hih.1
      · rw [hih.2]
        simp [mergeEntry, List.append_assoc]

/-- C10, amended: an entry that never absorbed a merge settles with
exactly the executor's result, with no correlationIds list added. Once a
merge occurred, every delivered result carries a correlationIds list; the
result delivered to the caller of the most recent command lists the final
primary correlation id first, followed by the absorbed correlation ids
from newest to oldest; a caller absorbed at an earlier merge receives the
id list as recorded by the merge that absorbed it (that merge's primary
first, then the older ids), which may omit later primary ids. -/
theorem settlement_correlation_ids :
    (∀ (c : QueuedCommand) (r : CommandResult),
      settleResolve (baseEntry c).resolve r = [(c.correlationId, r)])
    ∧ (∀ (e : Entry) (c : QueuedCommand) (r : CommandResult),
        ∀ p ∈ settleResolve (mergeEntry e c).resolve r, p.2.correlationIds ≠ none)
    ∧ (∀ (e : Entry) (c : QueuedCommand) (r : CommandResult),
        settleResolve (mergeEntry e c).resolve r
          = settleResolve e.resolve
              (withIds r (c.correlationId :: e.command.correlationId :: e.command.mergedCorrelationIds))
            ++ [(c.correlationId,
                 withIds r (c.correlationId :: e.command.correlationId :: e.command.mergedCorrelationIds))])
    ∧ (∀ (e : Entry) (c : QueuedCommand) (r : CommandResult),
        (settleResolve (mergeEntry e c).resolve r).getLast?
          = some (c.correlationId,
              withIds r (c.correlationId :: e.command.correlationId :: e.command.mergedCorrelationIds)))
    ∧ (∀ (cs : List QueuedCommand) (c0 : QueuedCommand) (h : cs ≠ []),
        (foldMerge (baseEntry c0) cs).command.correlationId = (cs.getLast h).correlationId
        ∧ (foldMerge (baseEntry c0) cs).command.mergedCorrelationIds
            = (cs.dropLast.map (fun c => c.correlationId)).reverse
              ++ c0.correlationId :: c0.mergedCorrelationIds) := by
  refine ⟨fun c r => rfl, ?_, fun e c r => settle_mergeEntry e c r, ?_, ?_⟩
  · intro e c r p hp
    rw [settle_mergeEntry] at hp
    simp only [List.mem_append, List.mem_singleton] at hp
    rcases hp with hp | hp
    · exact settleResolve_ids_present e.resolve _ _ rfl p hp
    · subst hp
      simp [withIds]
  · intro e c r
    rw [settle_mergeEntry]
    simp
  · intro cs c0 h
    have := foldMerge_mergedIds cs (baseEntry c0) h
    exact ⟨this.1, by rw [this.2]; simp [baseEntry]⟩

/-- C10, counterexample to the claim as stated: after two merges, the
result delivered to the earliest caller (correlation id 11) carries
`correlationIds = [12, 11]`, whose first element is not the final primary
id 13 — indeed 13 does not appear in it at all, although the executed
merged command's primary id is 13. -/
theorem settlement_counterexample :
    (run 100 initState
      [Event.enq 0 exTurn0, Event.enq 0 exBr1, Event.enq 0 exBr2, Event.enq 0 exBr3,
       Event.okE 0 exOk, Event.okE 0 exOk]).resolvedL
      = [(10, exOk),
         (11, { exOk with correlationIds := some [12, 11] }),
         (12, { exOk with correlationIds := some [12, 11] }),
         (13, { exOk with correlationIds := some [13, 12, 11] })]
    ∧ (run 100 initState
      [Event.enq 0 exTurn0, Event.enq 0 exBr1, Event.enq 0 exBr2, Event.enq 0 exBr3,
       Event.okE 0 exOk, Event.okE 0 exOk]).invocations.map (fun p => p.2.correlationId)
      = [10, 13]
    ∧ ¬ (13 ∈ [12, 11]) := by
  refine ⟨by decide, by decide, by decide⟩

/-- Witness for the amended C10 theorem at concrete inputs. -/
theorem settlement_correlation_ids_witness :
    settleResolve (baseEntry exTurn1).resolve exOk = [(exTurn1.correlationId, exOk)]
    ∧ (settleResolve (mergeEntry (baseEntry exBr1) exBr2).resolve exOk).getLast?
        = some (exBr2.correlationId,
            withIds exOk (exBr2.correlationId :: (baseEntry exBr1).command.correlationId
              :: (baseEntry exBr1).command.mergedCorrelationIds)) :=
  ⟨settlement_correlation_ids.1 exTurn1 exOk,
   settlement_correlation_ids.2.2.2.1 (baseEntry exBr1) exBr2 exOk⟩


theorem execGo_ok {α : Type} (op : Nat → AttemptOutcome α) (a l : Nat) (v : α)
    (h : op a = .ok v) : execGo op a l = ([.invoke a], .value v) := by
  unfold execGo
  rw [h]

theorem execGo_nonretry {α : Type} (op : Nat → AttemptOutcome α) (a l : Nat) (e : Thrown)
    (h : op a = .threw e) (hr : isRetryableError e = false) :
    execGo op a l = ([.invoke a], .raised e) := by
  unfold execGo
  rw [h]
  simp [hr]

theorem execGo_exhaust {α : Type} (op : Nat → AttemptOutcome α) (a : Nat) (e : Thrown)
    (h : op a = .threw e) (hr : isRetryableError e = true) :
    execGo op a 0 = ([.invoke a], .raised (exhaustThrow e)) := by
  unfold execGo
  rw [h]
  simp [hr]

theorem execGo_retry {α : Type} (op : Nat → AttemptOutcome α) (a l : Nat) (e : Thrown)
    (h : op a = .threw e) (hr : isRetryableError e = true) :
    execGo op a (l + 1)
      = (.invoke a :: .backoffSleep a :: (execGo op (a + 1) l).1, (execGo op (a + 1) l).2) := by
  conv_lhs => unfold execGo
  rw [h]
  simp [hr]

theorem ewrGo_ok {α : Type} (op : Nat → AttemptOutcome α) (a l : Nat) (v : α)
    (h : op a = .ok v) :
    ewrGo op a l = ([.invoke a], { success := true, result := some v, attempts := a + 1 }) := by
  unfold ewrGo
  rw [h]

theorem ewrGo_nonretry {α : Type} (op : Nat → AttemptOutcome α) (a l : Nat) (e : Thrown)
    (h : op a = .threw e) (hr : isRetryableError e = false) :
    ewrGo op a l
      = ([.invoke a], { success := false, error := some (wrapError e), attempts := a + 1 }) := by
  unfold ewrGo
  rw [h]
  simp [hr]

theorem ewrGo_exhaust {α : Type} (op : Nat → AttemptOutcome α) (a : Nat) (e : Thrown)
    (h : op a = .threw e) (hr : isRetryableError e = true) :
    ewrGo op a 0
      = ([.invoke a], { success := false, error := some (wrapError e), attempts := a + 1 }) := by
  unfold ewrGo
  rw [h]
  simp [hr]

theorem ewrGo_retry {α : Type} (op : Nat → AttemptOutcome α) (a l : Nat) (e : Thrown)
    (h : op a = .threw e) (hr : isRetryableError e = true) :
    ewrGo op a (l + 1)
      = (.invoke a :: .backoffSleep a :: (ewrGo op (a + 1) l).1, (ewrGo op (a + 1) l).2) := by
  conv_lhs => unfold ewrGo
  rw [h]
  simp [hr]

theorem countInvokes_nil : countInvokes [] = 0 := rfl

theorem countInvokes_append (l₁ l₂ : List RAction) :
    countInvokes (l₁ ++ l₂) = countInvokes l₁ + countInvokes l₂ := by
  simp [countInvokes, List.filter_append]

theorem countInvokes_cons_invoke (a : Nat) (l : List RAction) :
    countInvokes (.invoke a :: l) = countInvokes l + 1 := by
  simp [countInvokes, List.filter]

theorem countInvokes_cons_sleep (a : Nat) (l : List RAction) :
    countInvokes (.backoffSleep a :: l) = countInvokes l := by
  simp [countInvokes, List.filter]

/-- The retry prelude: a run of `invoke`/`backoffSleep` pairs for the
attempts `a, a+1, ..., a+k-1`. -/
theorem execGo_skip {α : Type} (op : Nat → AttemptOutcome α) :
    ∀ (k a l : Nat), k ≤ l →
      (∀ j, a ≤ j → j < a + k → ∃ e, op j = .threw e ∧ isRetryableError e = true) →
      execGo op a l
        = (((List.range' a k).map (fun j => [RAction.invoke j, RAction.backoffSleep j])).flatten
            ++ (execGo op (a + k) (l - k)).1,
           (execGo op (a + k) (l - k)).2) := by
  intro k
  induction k with
  | zero =>
    intro a l _ _
    simp [List.range']
  | succ k' ih =>
    intro a l hk hall
    obtain ⟨e, hop, hret⟩ := hall a (le_refl a) (by omega)
    cases l with
    | zero => omega
    | succ l' =>
      rw [execGo_retry op a l' e hop hret]
      have hrec := ih (a + 1) l' (by omega) (fun j hj1 hj2 => hall j (by omega) (by omega))
      rw [hrec]
      have h1 : a + 1 + k' = a + (k' + 1) := by omega
      have h2 : l' - k' = l' + 1 - (k' + 1) := by omega
      rw [h1, h2]
      have hrange : List.range' a (k' + 1) = a :: List.range' (a + 1) k' := rfl
      rw [hrange]
      simp

theorem countInvokes_skip_prelude :
    ∀ (k a : Nat),
      countInvokes
        (((List.range' a k).map (fun j => [RAction.invoke j, RAction.backoffSleep j])).flatten) = k := by
  intro k
  induction k with
  | zero => intro a; rfl
  | succ k' ih =>
    intro a
    have hrange : List.range' a (k' + 1) = a :: List.range' (a + 1) k' := rfl
    rw [hrange]
    simp only [List.map_cons, List.flatten_cons, List.cons_append, List.nil_append]
    rw [countInvokes_cons_invoke, countInvokes_cons_sleep, ih]

/-- C3: with an always-retryable error stream and `maxRetries = N`, the
operation is invoked exactly `N + 1` times and `execute` then fails; and
whenever an invocation succeeds, `execute` returns its value immediately:
the action trace ends at that invocation, with no later attempt and no
later backoff sleep. -/
theorem retry_attempt_count :
    (∀ (α : Type) (N : Nat) (op : Nat → AttemptOutcome α),
      (∀ n, n ≤ N → ∃ e, op n = .threw e ∧ isRetryableError e = true) →
      countInvokes (execute N op).1 = N + 1 ∧ ∃ e', (execute N op).2 = .raised e')
    ∧ (∀ (α : Type) (N k : Nat) (op : Nat → AttemptOutcome α) (v : α),
        k ≤ N →
        (∀ j, j < k → ∃ e, op j = .threw e ∧ isRetryableError e = true) →
        op k = .ok v →
        (execute N op).1
          = ((List.range' 0 k).map (fun j => [RAction.invoke j, RAction.backoffSleep j])).flatten
            ++ [RAction.invoke k]
        ∧ (execute N op).2 = .value v
        ∧ countInvokes (execute N op).1 = k + 1) := by
  constructor
  · intro α N op hall
    obtain ⟨eN, hopN, hretN⟩ := hall N (le_refl N)
    have hskip := execGo_skip op N 0 N (le_refl N)
      (fun j hj1 hj2 => hall j (by omega))
    rw [show (0 + N = N) from by omega, Nat.sub_self] at hskip
    rw [execGo_exhaust op N eN hopN hretN] at hskip
    unfold execute
    rw [hskip]
    constructor
    · rw [countInvokes_append, countInvokes_skip_prelude, countInvokes_cons_invoke, countInvokes_nil]
    · exact ⟨exhaustThrow eN, rfl⟩
  · intro α N k op v hk hbefore hopk
    have hskip := execGo_skip op k 0 N hk (fun j hj1 hj2 => hbefore j (by omega))
    rw [show (0 + k = k) from by omega] at hskip
    rw [execGo_ok op k (N - k) v hopk] at hskip
    unfold execute
    rw [hskip]
    refine ⟨rfl, rfl, ?_⟩
    rw [countInvokes_append, countInvokes_skip_prelude, countInvokes_cons_invoke, countInvokes_nil]

/-- Witness for C3 at concrete inputs: `maxRetries = 2` with a stream of
unavailable errors gives 3 invocations then failure; a success at attempt 1
ends the trace at that invocation. -/
theorem retry_attempt_count_witness :
    (countInvokes (execute 2 (fun _ => AttemptOutcome.threw (Thrown.govee .GOVEE_UNAVAILABLE none false) : Nat → AttemptOutcome Nat)).1 = 2 + 1
      ∧ ∃ e', (execute 2 (fun _ => AttemptOutcome.threw (Thrown.govee .GOVEE_UNAVAILABLE none false) : Nat → AttemptOutcome Nat)).2 = .raised e')
    ∧ ((execute 2 (fun n => if n < 1 then AttemptOutcome.threw (Thrown.govee .GOVEE_UNAVAILABLE none false) else AttemptOutcome.ok (42 : Nat))).1
        = ((List.range' 0 1).map (fun j => [RAction.invoke j, RAction.backoffSleep j])).flatten
          ++ [RAction.invoke 1]
      ∧ (execute 2 (fun n => if n < 1 then AttemptOutcome.threw (Thrown.govee .GOVEE_UNAVAILABLE none false) else AttemptOutcome.ok (42 : Nat))).2 = .value 42
      ∧ countInvokes (execute 2 (fun n => if n < 1 then AttemptOutcome.threw (Thrown.govee .GOVEE_UNAVAILABLE none false) else AttemptOutcome.ok (42 : Nat))).1 = 1 + 1) :=
  ⟨retry_attempt_count.1 Nat 2 _
      (fun n _ => ⟨Thrown.govee .GOVEE_UNAVAILABLE none false, rfl, by decide⟩),
   retry_attempt_count.2 Nat 2 1 _ 42 (by omega)
      (fun j hj => ⟨Thrown.govee .GOVEE_UNAVAILABLE none false, by simp [hj], by decide⟩)
      (by simp)⟩

/-- C4: `execute` and `executeWithResult` perform identical action traces
(the same invocations and the same backoff sleeps, hence the same attempt
counts and the same retry/no-retry decision at every attempt); they differ
only in surfacing: `execute` throws exactly when `executeWithResult`
reports `success = false`, returns `v` exactly when it reports success
with `result = some v`, and the reported `attempts` field counts the
invocations of the common trace. -/
theorem execute_ewr_agree :
    ∀ (α : Type) (N : Nat) (op : Nat → AttemptOutcome α),
      (execute N op).1 = (executeWithResult N op).1
      ∧ ((∃ e, (execute N op).2 = .raised e) ↔ (executeWithResult N op).2.success = false)
      ∧ (∀ v, (execute N op).2 = .value v ↔
          ((executeWithResult N op).2.success = true ∧ (executeWithResult N op).2.result = some v))
      ∧ (executeWithResult N op).2.attempts = countInvokes (executeWithResult N op).1 := by
  have key : ∀ (α : Type) (op : Nat → AttemptOutcome α) (l a : Nat),
      (execGo op a l).1 = (ewrGo op a l).1
      ∧ ((∃ e, (execGo op a l).2 = .raised e) ↔ (ewrGo op a l).2.success = false)
      ∧ (∀ v, (execGo op a l).2 = .value v ↔
          ((ewrGo op a l).2.success = true ∧ (ewrGo op a l).2.result = some v))
      ∧ (ewrGo op a l).2.attempts = a + countInvokes (ewrGo op a l).1 := by
    intro α op l
    induction l with
    | zero =>
      intro a
      cases hop : op a with
      | ok v =>
        rw [execGo_ok op a 0 v hop, ewrGo_ok op a 0 v hop]
        refine ⟨rfl, by simp, by simp, ?_⟩
        rw [countInvokes_cons_invoke, countInvokes_nil]
      | threw e =>
        cases hret : isRetryableError e with
        | false =>
          rw [execGo_nonretry op a 0 e hop hret, ewrGo_nonretry op a 0 e hop hret]
          refine ⟨rfl, by simp, by simp, ?_⟩
          rw [countInvokes_cons_invoke, countInvokes_nil]
        | true =>
          rw [execGo_exhaust op a e hop hret, ewrGo_exhaust op a e hop hret]
          refine ⟨rfl, by simp, by simp, ?_⟩
          rw [countInvokes_cons_invoke, countInvokes_nil]
    | succ l' ih =>
      intro a
      cases hop : op a with
      | ok v =>
        rw [execGo_ok op a (l' + 1) v hop, ewrGo_ok op a (l' + 1) v hop]
        refine ⟨rfl, by simp, by simp, ?_⟩
        rw [countInvokes_cons_invoke, countInvokes_nil]
      | threw e =>
        cases hret : isRetryableError e with
        | false =>
          rw [execGo_nonretry op a (l' + 1) e hop hret, ewrGo_nonretry op a (l' + 1) e hop hret]
          refine ⟨rfl, by simp, by simp, ?_⟩
          rw [countInvokes_cons_invoke, countInvokes_nil]
        | true =>
          rw [execGo_retry op a l' e hop hret, ewrGo_retry op a l' e hop hret]
          obtain ⟨h1, h2, h3, h4⟩ := ih (a + 1)
          refine ⟨by simp [h1], by simpa using h2, by simpa using h3, ?_⟩
          simp only
          rw [countInvokes_cons_invoke, countInvokes_cons_sleep, h4]
          omega
  intro α N op
  have h := key α op N 0
  unfold execute executeWithResult
  exact ⟨h.1, h.2.1, h.2.2.1, by rw [h.2.2.2]; omega⟩

theorem exhaustThrow_rate_limited (gc : Option Int) (mt : Bool) :
    exhaustThrow (.govee .GOVEE_RATE_LIMITED gc mt) = rateLimited := rfl

/-- C5, amended: on exhaustion `execute` fails with the last observed
error, remapped to the canonical rate-limited error exactly when that
error is a `GoveeApiError` whose `code` is `GOVEE_RATE_LIMITED`; a
terminal error carrying only the vendor 429 `goveeCode` (a rate-limit
signal to the classifier) is thrown unmodified; a non-retryable error is
propagated immediately and unmodified, with no further attempts and no
backoff after it. -/
theorem retry_exhaust_error :
    (∀ (α : Type) (N : Nat) (op : Nat → AttemptOutcome α) (e : Thrown),
      (∀ j, j < N → ∃ e', op j = .threw e' ∧ isRetryableError e' = true) →
      op N = .threw e → isRetryableError e = true →
      (execute N op).2 = .raised (exhaustThrow e))
    ∧ (∀ (gc : Option Int) (mt : Bool),
        exhaustThrow (.govee .GOVEE_RATE_LIMITED gc mt) = rateLimited)
    ∧ (∀ (code : ErrorCode) (gc : Option Int) (mt : Bool),
        code ≠ ErrorCode.GOVEE_RATE_LIMITED →
        exhaustThrow (.govee code gc mt) = .govee code gc mt)
    ∧ (∀ (na mt it : Bool), exhaustThrow (.error na mt it) = .error na mt it)
    ∧ (∀ (α : Type) (N k : Nat) (op : Nat → AttemptOutcome α) (e : Thrown),
        k ≤ N →
        (∀ j, j < k → ∃ e', op j = .threw e' ∧ isRetryableError e' = true) →
        op k = .threw e → isRetryableError e = false →
        (execute N op).2 = .raised e
        ∧ countInvokes (execute N op).1 = k + 1
        ∧ (execute N op).1.getLast? = some (RAction.invoke k)) := by
  refine ⟨?_, fun gc mt => rfl, ?_, fun na mt it => rfl, ?_⟩
  · intro α N op e hbefore hopN hret
    have hskip := execGo_skip op N 0 N (le_refl N) (fun j hj1 hj2 => hbefore j (by omega))
    rw [show (0 + N = N) from by omega, Nat.sub_self] at hskip
    rw [execGo_exhaust op N e hopN hret] at hskip
    unfold execute
    rw [hskip]
  · intro code gc mt h
    cases code <;> first | rfl | exact absurd rfl h
  · intro α N k op e hk hbefore hopk hret
    have hskip := execGo_skip op k 0 N hk (fun j hj1 hj2 => hbefore j (by omega))
    rw [show (0 + k = k) from by omega] at hskip
    rw [execGo_nonretry op k (N - k) e hopk hret] at hskip
    unfold execute
    rw [hskip]
    refine ⟨rfl, ?_, ?_⟩
    · rw [countInvokes_append, countInvokes_skip_prelude, countInvokes_cons_invoke, countInvokes_nil]
    · simp

/-- C5, counterexample to the claim as stated: a `GoveeApiError` with
`code = GOVEE_API_ERROR` and vendor `goveeCode = 429` is a rate-limit
signal to the classifier (it is retryable through the 429 test), yet on
exhaustion `execute` throws it unmodified, not the canonical rate-limited
error. -/
theorem rate_limit_remap_counterexample :
    isRetryableError (Thrown.govee .GOVEE_API_ERROR (some 429) false) = true
    ∧ (execute 0 (fun _ => AttemptOutcome.threw (Thrown.govee .GOVEE_API_ERROR (some 429) false))
        : List RAction × ExecOutcome Nat).2
        = .raised (Thrown.govee .GOVEE_API_ERROR (some 429) false)
    ∧ Thrown.govee .GOVEE_API_ERROR (some 429) false ≠ rateLimited := by
  refine ⟨by decide, by decide, by decide⟩

/-- Witness for the amended C5 theorem: exhaustion with a rate-limited
code remaps to the canonical error; a non-retryable 404 propagates
unmodified after one attempt. -/
theorem retry_exhaust_error_witness :
    ((execute 1 (fun _ => AttemptOutcome.threw (Thrown.govee .GOVEE_RATE_LIMITED none false))
        : List RAction × ExecOutcome Nat).2
      = .raised (exhaustThrow (Thrown.govee .GOVEE_RATE_LIMITED none false)))
    ∧ ((execute 3 (fun _ => AttemptOutcome.threw (Thrown.govee .GOVEE_API_ERROR (some 404) false))
          : List RAction × ExecOutcome Nat).2
        = .raised (Thrown.govee .GOVEE_API_ERROR (some 404) false)
      ∧ countInvokes (execute 3 (fun _ => AttemptOutcome.threw (Thrown.govee .GOVEE_API_ERROR (some 404) false))
          : List RAction × ExecOutcome Nat).1 = 0 + 1
      ∧ ((execute 3 (fun _ => AttemptOutcome.threw (Thrown.govee .GOVEE_API_ERROR (some 404) false))
          : List RAction × ExecOutcome Nat)).1.getLast? = some (RAction.invoke 0)) :=
  ⟨retry_exhaust_error.1 Nat 1 _ (Thrown.govee .GOVEE_RATE_LIMITED none false)
      (fun j hj => ⟨Thrown.govee .GOVEE_RATE_LIMITED none false, rfl, by decide⟩) rfl (by decide),
   retry_exhaust_error.2.2.2.2 Nat 3 0 _ (Thrown.govee .GOVEE_API_ERROR (some 404) false)
      (by omega) (fun j hj => absurd hj (by omega)) rfl (by decide)⟩


theorem aGet_cons {α : Type} (a : Nat) (b : α) (m : List (Nat × α)) (k : Nat) :
    aGet ((a, b) :: m) k = if a = k then some b else aGet m k := by
  by_cases h : a = k <;> simp [aGet, List.find?_cons, h]

theorem aGet_none_iff {α : Type} (m : List (Nat × α)) (k : Nat) :
    aGet m k = none ↔ ∀ p ∈ m, p.1 ≠ k := by
  induction m with
  | nil => simp [aGet]
  | cons p rest ih =>
    rcases p with ⟨a, b⟩
    rw [aGet_cons]
    by_cases h : a = k
    · simp [h]
    · simp [h, ih]

theorem aRemove_of_none {α : Type} (m : List (Nat × α)) (k : Nat)
    (h : aGet m k = none) : aRemove m k = m := by
  rw [aGet_none_iff] at h
  simp only [aRemove]
  rw [List.filter_eq_self]
  intro p hp
  simpa using h p hp

theorem aRemove_sublist {α : Type} (m : List (Nat × α)) (k : Nat) :
    (aRemove m k).Sublist m :=
  List.filter_sublist m

theorem aRemove_length_le {α : Type} (m : List (Nat × α)) (k : Nat) :
    (aRemove m k).length ≤ m.length :=
  (aRemove_sublist m k).length_le

theorem aRemove_mem_ne {α : Type} (m : List (Nat × α)) (k : Nat) :
    ∀ p ∈ aRemove m k, p.1 ≠ k := by
  intro p hp
  have := List.of_mem_filter hp
  simpa using this

theorem aRemove_length_lt {α : Type} (m : List (Nat × α)) (k : Nat) (v : α)
    (h : aGet m k = some v) : (aRemove m k).length < m.length := by
  induction m with
  | nil => simp [aGet] at h
  | cons p rest ih =>
    rcases p with ⟨a, b⟩
    rw [aGet_cons] at h
    by_cases ha : a = k
    · simp only [aRemove, List.filter_cons]
      have : ((a, b).1 != k) = false := by simp [ha]
      rw [this]
      calc (List.filter (fun p => p.1 != k) rest).length ≤ rest.length :=
            (List.filter_sublist rest).length_le
        _ < (⟨a, b⟩ :: rest : List (Nat × α)).length := by simp
    · rw [if_neg ha] at h
      have := ih h
      simp only [aRemove, List.filter_cons]
      have hne : ((a, b).1 != k) = true := by simp [ha]
      rw [hne]
      simpa [aRemove] using Nat.succ_lt_succ (by simpa [aRemove] using this)

theorem aRemove_length_nodup {α : Type} :
    ∀ (m : List (Nat × α)) (k : Nat) (v : α),
      (m.map Prod.fst).Nodup → aGet m k = some v →
      (aRemove m k).length + 1 = m.length := by
  intro m
  induction m with
  | nil => intro k v _ h; simp [aGet] at h
  | cons p rest ih =>
    intro k v hnd h
    rcases p with ⟨a, b⟩
    rw [aGet_cons] at h
    simp only [List.map_cons, List.nodup_cons] at hnd
    by_cases ha : a = k
    · subst ha
      simp only [aRemove, List.filter_cons]
      have : ((a, b).1 != a) = false := by simp
      rw [this]
      have hnone : aGet rest a = none := by
        rw [aGet_none_iff]
        intro q hq hqa
        exact hnd.1 (hqa ▸ List.mem_map_of_mem Prod.fst hq)
      rw [show List.filter (fun p => p.1 != a) rest = aRemove rest a from rfl,
        aRemove_of_none rest a hnone]
      simp
    · rw [if_neg ha] at h
      simp only [aRemove, List.filter_cons]
      have hne : ((a, b).1 != k) = true := by simp [ha]
      rw [hne]
      have := ih k v hnd.2 h
      simp only [aRemove] at this
      simp [this]

theorem aGet_aRemove_none {α : Type} (m : List (Nat × α)) (k k' : Nat)
    (h : aGet m k = none) : aGet (aRemove m k') k = none := by
  rw [aGet_none_iff] at h ⊢
  intro p hp
  exact h p ((aRemove_sublist m k').mem hp)

theorem stepCache_config (s : LRUCache) (op : CacheOp) :
    (stepCache s op).maxSize = s.maxSize ∧ (stepCache s op).defaultTtlMs = s.defaultTtlMs := by
  cases op with
  | getOp now k =>
    simp only [stepCache, cacheGet]
    cases aGet s.cache k with
    | none => exact ⟨rfl, rfl⟩
    | some entry =>
      by_cases h : now > entry.expiresAt
      · simp [h]
      · simp [h]
  | setOp now k v t => exact ⟨rfl, rfl⟩
  | delOp k => exact ⟨rfl, rfl⟩
  | clearOp => exact ⟨rfl, rfl⟩

theorem cacheSet_no_evict (now : Int) (k : Nat) (v : Nat) (t : Option Int) (s : LRUCache)
    (h : ¬ (s.maxSize ≤ s.cache.length ∧ aGet s.cache k = none)) :
    (cacheSet now k v t s).cache
      = aRemove s.cache k
        ++ [(k, { value := v, cachedAt := now, expiresAt := now + t.getD s.defaultTtlMs })] := by
  simp [cacheSet, h]

theorem cacheSet_evict (now : Int) (k : Nat) (v : Nat) (t : Option Int) (s : LRUCache)
    (k0 : Nat) (e0 : CacheEntry) (rest : List (Nat × CacheEntry))
    (hcap : s.maxSize ≤ s.cache.length) (hnew : aGet s.cache k = none)
    (hhead : s.cache = (k0, e0) :: rest) :
    (cacheSet now k v t s).cache
      = aRemove (aRemove s.cache k0) k
        ++ [(k, { value := v, cachedAt := now, expiresAt := now + t.getD s.defaultTtlMs })] := by
  simp only [cacheSet]
  rw [if_pos (And.intro hcap hnew), hhead]

theorem stepCache_length (s : LRUCache) (op : CacheOp)
    (hmax : 1 ≤ s.maxSize) (h : s.cache.length ≤ s.maxSize) :
    (stepCache s op).cache.length ≤ s.maxSize := by
  cases op with
  | getOp now k =>
    simp only [stepCache, cacheGet]
    cases hg : aGet s.cache k with
    | none => exact h
    | some entry =>
      by_cases hex : now > entry.expiresAt
      · simp only [if_pos hex]
        exact le_trans (aRemove_length_le s.cache k) h
      · simp only [if_neg hex]
        have := aRemove_length_lt s.cache k entry hg
        simp only [List.length_append, List.length_cons, List.length_nil]
        omega
  | setOp now k v t =>
    by_cases hcond : s.maxSize ≤ s.cache.length ∧ aGet s.cache k = none
    · obtain ⟨hcap, hnew⟩ := hcond
      cases hc : s.cache with
      | nil =>
        rw [hc] at hcap
        simp at hcap
        omega
      | cons p rest =>
        rcases p with ⟨k0, e0⟩
        rw [show stepCache s (.setOp now k v t) = cacheSet now k v t s from rfl,
          cacheSet_evict now k v t s k0 e0 rest hcap hnew hc]
        have h1 : aGet s.cache k0 = some e0 := by rw [hc, aGet_cons]; simp
        have h2 := aRemove_length_lt s.cache k0 e0 h1
        have h3 := aRemove_length_le (aRemove s.cache k0) k
        simp only [List.length_append, List.length_cons, List.length_nil]
        omega
    · rw [show stepCache s (.setOp now k v t) = cacheSet now k v t s from rfl,
        cacheSet_no_evict now k v t s hcond]
      simp only [List.length_append, List.length_cons, List.length_nil]
      rw [Decidable.not_and_iff_or_not] at hcond
      rcases hcond with hcap | hnew
      · have := aRemove_length_le s.cache k
        omega
      · have : ∃ v', aGet s.cache k = some v' := by
          cases hg : aGet s.cache k with
          | none => exact absurd hg hnew
          | some v' => exact ⟨v', rfl⟩
        obtain ⟨v', hv'⟩ := this
        have := aRemove_length_lt s.cache k v' hv'
        omega
  | delOp k => exact le_trans (aRemove_length_le s.cache k) h
  | clearOp => simp [stepCache]

theorem runCache_length :
    ∀ (ops : List CacheOp) (s : LRUCache),
      1 ≤ s.maxSize → s.cache.length ≤ s.maxSize →
      (runCache s ops).cache.length ≤ (runCache s ops).maxSize := by
  intro ops
  induction ops with
  | nil => intro s h1 h2; exact h2
  | cons op rest ih =>
    intro s h1 h2
    have hc := stepCache_config s op
    exact ih (stepCache s op) (hc.1 ▸ h1) (hc.1 ▸ stepCache_length s op h1 h2)

theorem runCache_maxSize :
    ∀ (ops : List CacheOp) (s : LRUCache), (runCache s ops).maxSize = s.maxSize := by
  intro ops
  induction ops with
  | nil => intro s; rfl
  | cons op rest ih =>
    intro s
    rw [show runCache s (op :: rest) = runCache (stepCache s op) rest from rfl, ih,
      (stepCache_config s op).1]

theorem nodup_snoc_key {α : Type} (m : List (Nat × α)) (k : Nat) (v : α)
    (hm : (m.map Prod.fst).Nodup) (hk : ∀ p ∈ m, p.1 ≠ k) :
    (((m ++ [(k, v)]).map Prod.fst)).Nodup := by
  rw [List.map_append]
  apply List.Nodup.append hm (by simp)
  intro a ha hb
  simp only [List.map_cons, List.map_nil, List.mem_singleton] at hb
  subst hb
  obtain ⟨p, hp, hpa⟩ := List.mem_map.mp ha
  exact hk p hp hpa

theorem nodup_aRemove {α : Type} (m : List (Nat × α)) (k : Nat)
    (hm : (m.map Prod.fst).Nodup) : ((aRemove m k).map Prod.fst).Nodup :=
  hm.sublist ((aRemove_sublist m k).map Prod.fst)

theorem stepCache_nodup (s : LRUCache) (op : CacheOp)
    (h : (s.cache.map Prod.fst).Nodup) :
    ((stepCache s op).cache.map Prod.fst).Nodup := by
  cases op with
  | getOp now k =>
    simp only [stepCache, cacheGet]
    cases hg : aGet s.cache k with
    | none => exact h
    | some entry =>
      by_cases hex : now > entry.expiresAt
      · simp only [if_pos hex]
        exact nodup_aRemove s.cache k h
      · simp only [if_neg hex]
        exact nodup_snoc_key _ k entry (nodup_aRemove s.cache k h) (aRemove_mem_ne s.cache k)
  | setOp now k v t =>
    by_cases hcond : s.maxSize ≤ s.cache.length ∧ aGet s.cache k = none
    · rw [show stepCache s (.setOp now k v t) = cacheSet now k v t s from rfl]
      simp only [cacheSet, if_pos hcond]
      cases hc : s.cache with
      | nil =>
        simp [aRemove]
      | cons p rest =>
        rcases p with ⟨k0, e0⟩
        apply nodup_snoc_key
        · exact nodup_aRemove _ k (nodup_aRemove _ k0 (hc ▸ h))
        · exact aRemove_mem_ne _ k
    · rw [show stepCache s (.setOp now k v t) = cacheSet now k v t s from rfl,
        cacheSet_no_evict now k v t s hcond]
      exact nodup_snoc_key _ k _ (nodup_aRemove s.cache k h) (aRemove_mem_ne s.cache k)
  | delOp k => exact nodup_aRemove s.cache k h
  | clearOp => simp [stepCache]

theorem runCache_nodup :
    ∀ (ops : List CacheOp) (s : LRUCache),
      (s.cache.map Prod.fst).Nodup →
      ((runCache s ops).cache.map Prod.fst).Nodup := by
  intro ops
  induction ops with
  | nil => intro s h; exact h
  | cons op rest ih => intro s h; exact ih (stepCache s op) (stepCache_nodup s op h)


theorem tErase_nil : tErase [] = [] := rfl

theorem tErase_cons (a : Nat) (e : CacheEntry) (t : Nat) (m : List (Nat × CacheEntry × Nat)) :
    tErase ((a, e, t) :: m) = (a, e) :: tErase m := rfl

theorem tErase_append (m₁ m₂ : List (Nat × CacheEntry × Nat)) :
    tErase (m₁ ++ m₂) = tErase m₁ ++ tErase m₂ := by
  simp [tErase]

theorem tErase_length (m : List (Nat × CacheEntry × Nat)) :
    (tErase m).length = m.length := by
  simp [tErase]

theorem tErase_aRemove (m : List (Nat × CacheEntry × Nat)) (k : Nat) :
    tErase (aRemove m k) = aRemove (tErase m) k := by
  induction m with
  | nil => rfl
  | cons p rest ih =>
    rcases p with ⟨a, e, t⟩
    by_cases h : a = k
    · simp [tErase, aRemove, List.filter_cons, h] at ih ⊢
      exact ih
    · simp [tErase, aRemove, List.filter_cons, h] at ih ⊢
      exact ih

theorem aGet_tErase (m : List (Nat × CacheEntry × Nat)) (k : Nat) :
    aGet (tErase m) k = (aGet m k).map (fun et => et.1) := by
  induction m with
  | nil => rfl
  | cons p rest ih =>
    rcases p with ⟨a, e, t⟩
    rw [tErase_cons, aGet_cons, aGet_cons]
    by_cases h : a = k
    · simp [h]
    · simp [h, ih]

theorem cacheSet_no_evict_nil (now : Int) (k : Nat) (v : Nat) (t : Option Int) (s : LRUCache)
    (h : s.cache = []) :
    (cacheSet now k v t s).cache
      = [(k, { value := v, cachedAt := now, expiresAt := now + t.getD s.defaultTtlMs })] := by
  by_cases hcond : s.maxSize ≤ s.cache.length ∧ aGet s.cache k = none
  · simp only [cacheSet]
    rw [if_pos hcond, h]
    simp [aRemove]
  · rw [cacheSet_no_evict now k v t s hcond, h]
    simp [aRemove]

theorem stepT_proj (mx : Nat) (ttl : Int) (i : Nat) (m : List (Nat × CacheEntry × Nat))
    (op : CacheOp) (s : LRUCache)
    (hc : s.cache = tErase m) (hm : s.maxSize = mx) (ht : s.defaultTtlMs = ttl) :
    tErase (stepTCache mx ttl i m op) = (stepCache s op).cache := by
  cases op with
  | getOp now k =>
    simp only [stepTCache, stepCache, cacheGet, hc, aGet_tErase]
    cases hg : aGet m k with
    | none => simp [hc]
    | some et =>
      rcases et with ⟨e, t0⟩
      simp only [Option.map_some]
      by_cases hex : now > e.expiresAt
      · simp [hex, tErase_aRemove, hc]
      · simp [hex, tErase_aRemove, tErase_append, tErase_cons, tErase_nil, hc]
  | setOp now k v t =>
    have hlen : s.cache.length = m.length := by rw [hc, tErase_length]
    have hgetiff : aGet s.cache k = (aGet m k).map (fun et => et.1) := by
      rw [hc, aGet_tErase]
    by_cases hcond : mx ≤ m.length ∧ aGet m k = none
    · have hcond' : s.maxSize ≤ s.cache.length ∧ aGet s.cache k = none := by
        refine ⟨by rw [hm, hlen]; exact hcond.1, by rw [hgetiff, hcond.2]; rfl⟩
      cases m with
      | nil =>
        rw [show stepCache s (.setOp now k v t) = cacheSet now k v t s from rfl,
          cacheSet_no_evict_nil now k v t s (by rw [hc]; rfl)]
        simp only [stepTCache, if_pos hcond]
        rw [ht]
        simp [tErase_append, tErase_cons, tErase_nil, aRemove, hc]
      | cons p rest =>
        rcases p with ⟨k0, e0, t0⟩
        rw [show stepCache s (.setOp now k v t) = cacheSet now k v t s from rfl,
          cacheSet_evict now k v t s k0 e0 (tErase rest) hcond'.1 hcond'.2 (by rw [hc]; rfl)]
        simp only [stepTCache, if_pos hcond]
        rw [ht, tErase_append, tErase_aRemove, tErase_aRemove, tErase_cons, hc]
        rfl
    · have hcond' : ¬ (s.maxSize ≤ s.cache.length ∧ aGet s.cache k = none) := by
        intro hcc
        apply hcond
        refine ⟨by rw [← hm, ← hlen]; exact hcc.1, ?_⟩
        rw [hgetiff] at hcc
        cases hgm : aGet m k with
        | none => rfl
        | some et =>
          rw [hgm] at hcc
          exact absurd hcc.2 (by simp)
      rw [show stepCache s (.setOp now k v t) = cacheSet now k v t s from rfl,
        cacheSet_no_evict now k v t s hcond']
      simp only [stepTCache, if_neg hcond]
      rw [ht]
      simp [tErase_append, tErase_cons, tErase_nil, tErase_aRemove, hc]
  | delOp k =>
    simp [stepTCache, stepCache, hc, tErase_aRemove]
  | clearOp => simp [stepTCache, stepCache, tErase_nil]

theorem runT_proj (mx : Nat) (ttl : Int) :
    ∀ (ops : List CacheOp) (m : List (Nat × CacheEntry × Nat)) (i : Nat) (s : LRUCache),
      s.cache = tErase m → s.maxSize = mx → s.defaultTtlMs = ttl →
      tErase (runTCache mx ttl m i ops) = (runCache s ops).cache := by
  intro ops
  induction ops with
  | nil => intro m i s hc _ _; exact hc.symm
  | cons op rest ih =>
    intro m i s hc hm ht
    exact ih (stepTCache mx ttl i m op) (i + 1) (stepCache s op)
      ((stepT_proj mx ttl i m op s hc hm ht).symm)
      ((stepCache_config s op).1.trans hm)
      ((stepCache_config s op).2.trans ht)

theorem snoc_touch_sorted (m mr : List (Nat × CacheEntry × Nat)) (k : Nat) (e : CacheEntry)
    (i : Nat) (hsub : mr.Sublist m)
    (hs : List.Pairwise (fun a b => a.2.2 < b.2.2) m)
    (hb : ∀ p ∈ m, p.2.2 < i) :
    List.Pairwise (fun a b => a.2.2 < b.2.2) (mr ++ [(k, e, i)])
    ∧ (∀ p ∈ mr ++ [(k, e, i)], p.2.2 < i + 1) := by
  constructor
  · rw [List.pairwise_append]
    refine ⟨hs.sublist hsub, by simp, ?_⟩
    intro a ha b hb'
    simp only [List.mem_singleton] at hb'
    subst hb'
    exact hb a (hsub.mem ha)
  · intro p hp
    rcases List.mem_append.mp hp with hp | hp
    · exact lt_trans (hb p (hsub.mem hp)) (Nat.lt_succ_self i)
    · simp only [List.mem_singleton] at hp
      subst hp
      exact Nat.lt_succ_self i

theorem stepT_sorted (mx : Nat) (ttl : Int) (i : Nat) (m : List (Nat × CacheEntry × Nat))
    (op : CacheOp)
    (hs : List.Pairwise (fun a b => a.2.2 < b.2.2) m)
    (hb : ∀ p ∈ m, p.2.2 < i) :
    List.Pairwise (fun a b => a.2.2 < b.2.2) (stepTCache mx ttl i m op)
    ∧ (∀ p ∈ stepTCache mx ttl i m op, p.2.2 < i + 1) := by
  cases op with
  | getOp now k =>
    simp only [stepTCache]
    cases hg : aGet m k with
    | none => exact ⟨hs, fun p hp => lt_trans (hb p hp) (Nat.lt_succ_self i)⟩
    | some et =>
      by_cases hex : now > et.1.expiresAt
      · simp only [if_pos hex]
        exact ⟨hs.sublist (aRemove_sublist m k),
          fun p hp => lt_trans (hb p ((aRemove_sublist m k).mem hp)) (Nat.lt_succ_self i)⟩
      · simp only [if_neg hex]
        exact snoc_touch_sorted m (aRemove m k) k et.1 i (aRemove_sublist m k) hs hb
  | setOp now k v t =>
    simp only [stepTCache]
    have hsub : (aRemove
        (if mx ≤ m.length ∧ aGet m k = none then
          match m with
          | [] => m
          | (k0, _) :: _ => aRemove m k0
        else m) k).Sublist m := by
      by_cases hcond : mx ≤ m.length ∧ aGet m k = none
      · rw [if_pos hcond]
        cases m with
        | nil => simp [aRemove]
        | cons p rest =>
          exact ((aRemove_sublist _ k).trans (aRemove_sublist _ p.1))
      · rw [if_neg hcond]
        exact aRemove_sublist m k
    exact snoc_touch_sorted m _ k _ i hsub hs hb
  | delOp k =>
    exact ⟨hs.sublist (aRemove_sublist m k),
      fun p hp => lt_trans (hb p ((aRemove_sublist m k).mem hp)) (Nat.lt_succ_self i)⟩
  | clearOp =>
    exact ⟨List.Pairwise.nil, by simp [stepTCache]⟩

theorem runT_sorted (mx : Nat) (ttl : Int) :
    ∀ (ops : List CacheOp) (m : List (Nat × CacheEntry × Nat)) (i : Nat),
      List.Pairwise (fun a b => a.2.2 < b.2.2) m →
      (∀ p ∈ m, p.2.2 < i) →
      List.Pairwise (fun a b => a.2.2 < b.2.2) (runTCache mx ttl m i ops) := by
  intro ops
  induction ops with
  | nil => intro m i hs _; exact hs
  | cons op rest ih =>
    intro m i hs hb
    obtain ⟨hs', hb'⟩ := stepT_sorted mx ttl i m op hs hb
    exact ih (stepTCache mx ttl i m op) (i + 1) hs' hb'


theorem cacheGet_expired (s : LRUCache) (now : Int) (k : Nat) (e : CacheEntry)
    (hg : aGet s.cache k = some e) (hex : e.expiresAt < now) :
    cacheGet now k s = (none, { s with cache := aRemove s.cache k }) := by
  simp [cacheGet, hg, hex]

theorem cacheGet_valid (s : LRUCache) (now : Int) (k : Nat) (e : CacheEntry)
    (hg : aGet s.cache k = some e) (hval : now ≤ e.expiresAt) :
    cacheGet now k s = (some e, { s with cache := aRemove s.cache k ++ [(k, e)] }) := by
  simp [cacheGet, hg, not_lt.mpr hval]

/-- C9: a read of a present key returns absent and deletes the entry
exactly when `now > expiresAt` (an entry read exactly at its expiry
instant is still returned as valid), the physical size decreasing by one
on such an expired read and staying unchanged on a valid read (key sets of
reachable caches are duplicate-free); a read of an absent key changes
nothing. -/
theorem cache_get_expiry :
    (∀ (s : LRUCache) (now : Int) (k : Nat) (e : CacheEntry),
      aGet s.cache k = some e → e.expiresAt < now →
      (cacheGet now k s).1 = none
      ∧ (cacheGet now k s).2.cache = aRemove s.cache k
      ∧ ((s.cache.map Prod.fst).Nodup → (cacheGet now k s).2.cache.length + 1 = s.cache.length))
    ∧ (∀ (s : LRUCache) (now : Int) (k : Nat) (e : CacheEntry),
        aGet s.cache k = some e → now ≤ e.expiresAt →
        (cacheGet now k s).1 = some e
        ∧ ((s.cache.map Prod.fst).Nodup → (cacheGet now k s).2.cache.length = s.cache.length))
    ∧ (∀ (s : LRUCache) (now : Int) (k : Nat),
        aGet s.cache k = none → cacheGet now k s = (none, s))
    ∧ (∀ (ttl : Int) (mx : Nat) (ops : List CacheOp),
        ((runCache (emptyCache ttl mx) ops).cache.map Prod.fst).Nodup) := by
  refine ⟨?_, ?_, ?_, ?_⟩
  · intro s now k e hg hex
    rw [cacheGet_expired s now k e hg hex]
    exact ⟨rfl, rfl, fun hnd => aRemove_length_nodup s.cache k e hnd hg⟩
  · intro s now k e hg hval
    rw [cacheGet_valid s now k e hg hval]
    refine ⟨rfl, fun hnd => ?_⟩
    have := aRemove_length_nodup s.cache k e hnd hg
    simp only [List.length_append, List.length_cons, List.length_nil]
    omega
  · intro s now k hg
    simp [cacheGet, hg]
  · intro ttl mx ops
    exact runCache_nodup ops (emptyCache ttl mx) (by simp [emptyCache])

/-- Witness for C9 at a one-entry cache expiring at time 10: a read at 11
is absent and shrinks the cache; a read exactly at 10 still returns the
entry with the size unchanged. -/
theorem cache_get_expiry_witness :
    ((cacheGet 11 1 { cache := [(1, { value := 5, cachedAt := 0, expiresAt := 10 })], defaultTtlMs := 10, maxSize := 5 }).1 = none
      ∧ (cacheGet 11 1 { cache := [(1, { value := 5, cachedAt := 0, expiresAt := 10 })], defaultTtlMs := 10, maxSize := 5 }).2.cache
          = aRemove [(1, { value := 5, cachedAt := 0, expiresAt := 10 })] 1
      ∧ (([(1, ({ value := 5, cachedAt := 0, expiresAt := 10 } : CacheEntry))].map Prod.fst).Nodup →
          (cacheGet 11 1 { cache := [(1, { value := 5, cachedAt := 0, expiresAt := 10 })], defaultTtlMs := 10, maxSize := 5 }).2.cache.length + 1
            = ([(1, ({ value := 5, cachedAt := 0, expiresAt := 10 } : CacheEntry))]).length))
    ∧ ((cacheGet 10 1 { cache := [(1, { value := 5, cachedAt := 0, expiresAt := 10 })], defaultTtlMs := 10, maxSize := 5 }).1
        = some { value := 5, cachedAt := 0, expiresAt := 10 }) :=
  ⟨cache_get_expiry.1 { cache := [(1, { value := 5, cachedAt := 0, expiresAt := 10 })], defaultTtlMs := 10, maxSize := 5 }
      11 1 { value := 5, cachedAt := 0, expiresAt := 10 } (by decide) (by decide),
   (cache_get_expiry.2.1 { cache := [(1, { value := 5, cachedAt := 0, expiresAt := 10 })], defaultTtlMs := 10, maxSize := 5 }
      10 1 { value := 5, cachedAt := 0, expiresAt := 10 } (by decide) (by decide)).1⟩

/-- C8, amended: for every configured maximum size of at least 1, the
physical size never exceeds the maximum over any operation sequence; `set`
never evicts when the key is already present or the cache is under
capacity (the key is re-inserted at the most-recently-used end with a
fresh expiry); inserting a brand-new key at capacity evicts exactly the
first key of the map and nothing else; and in the recency-instrumented
machine — whose erasure provably coincides with the plain machine — every
reachable map is strictly sorted by last touch, so the first key is the
least-recently-touched one, never a more-recently-touched one. With a
configured maximum of 0 the bound fails (see the counterexample). -/
theorem cache_lru_bound :
    (∀ (ttl : Int) (mx : Nat) (ops : List CacheOp),
      1 ≤ mx → (runCache (emptyCache ttl mx) ops).cache.length ≤ mx)
    ∧ (∀ (s : LRUCache) (now : Int) (k v : Nat) (t : Option Int),
        ¬ (s.maxSize ≤ s.cache.length ∧ aGet s.cache k = none) →
        (cacheSet now k v t s).cache
          = aRemove s.cache k
            ++ [(k, { value := v, cachedAt := now, expiresAt := now + t.getD s.defaultTtlMs })])
    ∧ (∀ (s : LRUCache) (now : Int) (k v : Nat) (t : Option Int)
          (k0 : Nat) (e0 : CacheEntry) (rest : List (Nat × CacheEntry)),
        s.maxSize ≤ s.cache.length → aGet s.cache k = none →
        s.cache = (k0, e0) :: rest → (s.cache.map Prod.fst).Nodup →
        (cacheSet now k v t s).cache
          = rest ++ [(k, { value := v, cachedAt := now, expiresAt := now + t.getD s.defaultTtlMs })])
    ∧ (∀ (ttl : Int) (mx : Nat) (ops : List CacheOp),
        tErase (runTCache mx ttl [] 0 ops) = (runCache (emptyCache ttl mx) ops).cache)
    ∧ (∀ (ttl : Int) (mx : Nat) (ops : List CacheOp),
        List.Pairwise (fun a b => a.2.2 < b.2.2) (runTCache mx ttl [] 0 ops))
    ∧ (∀ (k0 : Nat) (e0 : CacheEntry) (t0 : Nat) (rest : List (Nat × CacheEntry × Nat)),
        List.Pairwise (fun a b => a.2.2 < b.2.2) ((k0, e0, t0) :: rest) →
        ∀ p ∈ rest, t0 < p.2.2) := by
  refine ⟨?_, ?_, ?_, ?_, ?_, ?_⟩
  · intro ttl mx ops h1
    have := runCache_length ops (emptyCache ttl mx) (by simpa [emptyCache] using h1)
      (by simp [emptyCache])
    rwa [runCache_maxSize ops (emptyCache ttl mx)] at this
  · intro s now k v t h
    exact cacheSet_no_evict now k v t s h
  · intro s now k v t k0 e0 rest hcap hnew hhead hnd
    rw [cacheSet_evict now k v t s k0 e0 rest hcap hnew hhead]
    have hrest0 : aGet rest k0 = none := by
      rw [aGet_none_iff]
      intro p hp hpk
      rw [hhead] at hnd
      simp only [List.map_cons, List.nodup_cons] at hnd
      exact hnd.1 (hpk ▸ List.mem_map_of_mem Prod.fst hp)
    have h1 : aRemove s.cache k0 = rest := by
      rw [hhead]
      simp only [aRemove, List.filter_cons]
      have : ((k0, e0).1 != k0) = false := by simp
      rw [this]
      exact aRemove_of_none rest k0 hrest0
    have h2 : aRemove rest k = rest := by
      apply aRemove_of_none
      rw [aGet_none_iff] at hnew ⊢
      intro p hp
      exact hnew p (by rw [hhead]; exact List.mem_cons_of_mem _ hp)
    rw [h1, h2]
  · intro ttl mx ops
    exact runT_proj mx ttl ops [] 0 (emptyCache ttl mx) rfl rfl rfl
  · intro ttl mx ops
    exact runT_sorted mx ttl ops [] 0 List.Pairwise.nil (by simp)
  · intro k0 e0 t0 rest h p hp
    exact (List.pairwise_cons.mp h).1 p hp

/-- C8, counterexample to the claim as stated: with a configured maximum
size of 0, a single `set` leaves one entry in the cache — the physical
size exceeds the configured maximum (the eviction branch finds no first
key to delete and the insertion proceeds regardless). -/
theorem cache_size_counterexample :
    (emptyCache 300000 0).maxSize = 0
    ∧ (runCache (emptyCache 300000 0) [CacheOp.setOp 0 1 5 none]).cache.length = 1 := by
  exact ⟨rfl, by decide⟩

/-- Witness for the amended C8 theorem: the size bound at maximum size 2
over a four-operation sequence, and eviction of the least-recently-used
head key when inserting a new key at capacity. -/
theorem cache_lru_bound_witness :
    (runCache (emptyCache 10 2) exCacheOps).cache.length ≤ 2
    ∧ (cacheSet 3 3 33 none exCacheFull).cache
        = [(1, exEntry1), (3, { value := 33, cachedAt := 3, expiresAt := 13 })] := by
  constructor
  · exact cache_lru_bound.1 10 2 exCacheOps (by decide)
  · have h := cache_lru_bound.2.2.1 exCacheFull 3 3 33 none 2 exEntry2 [(1, exEntry1)]
      (by decide) (by decide) rfl (by decide)
    rw [h]
    decide


/-- C7: evaluation of the shutdown machine at the failing input. With no
coalescing, a first command is mid-execution and a second is waiting when
`clear()` runs: `clear()` rejects the waiting entry with the queue-cleared
failure, returns 1, and resets the `queues` and `processing` maps — but
the drain loop still holds a reference to the device's array, which
`clear()` did not empty, so when the in-flight execution settles the loop
shifts and passes the already-rejected entry to the executor. -/
theorem clear_zombie_execution :
    (cRun 0 cInit [CEvent.enq 0 exTurn1, CEvent.enq 0 exTurn2, CEvent.clearE]).clearedCounts = [1]
    ∧ (cRun 0 cInit [CEvent.enq 0 exTurn1, CEvent.enq 0 exTurn2, CEvent.clearE]).rejectedL
        = [(2, RejReason.queueCleared)]
    ∧ (cRun 0 cInit [CEvent.enq 0 exTurn1, CEvent.enq 0 exTurn2, CEvent.clearE]).queuesMap = []
    ∧ (cRun 0 cInit [CEvent.enq 0 exTurn1, CEvent.enq 0 exTurn2, CEvent.clearE]).procMap = []
    ∧ (cRun 0 cInit [CEvent.enq 0 exTurn1, CEvent.enq 0 exTurn2, CEvent.clearE]).invocations
        = [(0, exTurn1)]
    ∧ (cRun 0 cInit
        [CEvent.enq 0 exTurn1, CEvent.enq 0 exTurn2, CEvent.clearE, CEvent.okE 0 exOk]).invocations
        = [(0, exTurn1), (0, exTurn2)] := by
  refine ⟨by decide, by decide, by decide, by decide, by decide, by decide⟩

end GoveeSpec
